import Mathlib

/-!
Verification of the ngixi-builds dependency-build orchestrator.

This file gives a shallow embedding, in Lean, of the core modules of the
repository:

* `src/scripts/utils/dependency-resolver.js` (`resolveBuildOrder`, `detectCycles`)
* `src/scripts/utils/config-validator.js` (`validateBuildConfig`, `getDependency`)
* `src/scripts/utils/git-operations.js` (`cloneGitRepository`, `checkoutGitRef`)
* `src/build/scripts/utils/repo-manager.js` (the checkout-ref selection of
  `prepareRepository`)
* `src/scripts/utils/index.js` (`orchestrateBuild`)

JavaScript objects are modelled as association lists with distinct keys
(JS object keys are unique and `Object.keys` preserves insertion order);
nullable / possibly-absent fields are modelled as `Option`; thrown
exceptions are modelled with `Except`.  Effectful collaborators (the
command runner, the filesystem, dynamic module import, the tool loader,
the build workers and the release publisher) are modelled as explicit
oracle parameters, and the sequence of collaborator invocations is made
observable as an explicit trace, so that ordering claims ("X runs before
Y", "no build step runs for a skipped dependency") become statements
about that trace.
-/

/-- `git` sub-object of a dependency entry (`buildConfig.json`).  All three
fields may be absent in a raw configuration, hence `Option`. -/
structure GitConfig where
  url : Option String := none
  shallow : Option Bool := none
  initSubmodules : Option Bool := none
  deriving Repr, DecidableEq

/-- One tool specification, as consumed by `loadTools` in
`src/tools/tool-loader.js`. -/
structure ToolSpec where
  name : String
  toolFile : String
  deriving Repr, DecidableEq

/-- One named dependency entry of the build configuration (the data model of
spec section 3).  `skip` is tested with `=== true` in the source, so it is
modelled as a plain `Bool` defaulting to `false`. -/
structure DepConfig where
  name : Option String := none
  git : Option GitConfig := none
  defaultVersion : Option String := none
  branch : Option String := none
  deps : Option (List String) := none
  runner : Option String := none
  tools : Option (List ToolSpec) := none
  skip : Bool := false
  deriving Repr, DecidableEq

/-- The root build configuration object.  `deps` is an association list of
(key, entry) pairs in declaration order, mirroring a JS object. -/
structure BuildConfig where
  version : Option String := none
  deps : Option (List (String × DepConfig)) := none
  releasesRoot : Option String := none
  deriving Repr, DecidableEq

/-- JS truthiness of an optional string: `null`, `undefined` and `""` are
falsy. -/
def jsTruthyStr (s : Option String) : Bool :=
  match s with
  | none => false
  | some v => !v.isEmpty

/-- Lookup of `deps[k]` in the configuration object, modelled on the
association list. -/
def lookupDep (deps : List (String × DepConfig)) (k : String) : Option DepConfig :=
  match deps with
  | [] => none
  | (k', d) :: rest => if k' = k then some d else lookupDep rest k

/-- `deps[k].deps || []`: the declared dependency keys of entry `k` (the
empty list when the entry or its `deps` field is absent, matching the
source's `|| []` and `?.` fallbacks). -/
def depsOf (deps : List (String × DepConfig)) (k : String) : List String :=
  match lookupDep deps k with
  | some d => d.deps.getD []
  | none => []

/-- `deps[k].skip === true`. -/
def isSkip (deps : List (String × DepConfig)) (k : String) : Bool :=
  match lookupDep deps k with
  | some d => d.skip
  | none => false

/-- `Object.keys(deps)` in declaration order. -/
def depKeys (deps : List (String × DepConfig)) : List String :=
  deps.map Prod.fst

/-- The keys partitioned as skipped (`skip === true`), in declaration
order (`skippedDeps` in the source). -/
def skippedNames (deps : List (String × DepConfig)) : List String :=
  (depKeys deps).filter (fun n => isSkip deps n)

/-- The non-skipped keys in declaration order (`activeDeps` in the
source). -/
def activeNames (deps : List (String × DepConfig)) : List String :=
  (depKeys deps).filter (fun n => !(isSkip deps n))

/-- The `invalidDeps` list of `resolveBuildOrder`: each active key paired
with the skipped keys appearing in its `deps`, kept only when that list is
non-empty. -/
def skipViolations (deps : List (String × DepConfig)) : List (String × List String) :=
  (activeNames deps).filterMap (fun n =>
    let skippedDependencies := (depsOf deps n).filter (fun d => (skippedNames deps).contains d)
    if skippedDependencies.isEmpty then none else some (n, skippedDependencies))

/-- The adjacency list `graph` built by `resolveBuildOrder`: `graphOf deps d`
lists the active keys that depend on `d`, once per occurrence of `d` in
their `deps`, in declaration order (the source pushes `depName` onto
`graph[dependency]` while iterating actives in order). -/
def graphOf (deps : List (String × DepConfig)) (d : String) : List String :=
  (activeNames deps).flatMap (fun n => ((depsOf deps n).filter (fun x => x = d)).map (fun _ => n))

/-- Initial in-degrees: `inDegree[n] = deps[n].deps.length` for every active
key `n` (the source only ever reads the map at active keys). -/
def indegInit (deps : List (String × DepConfig)) : String → Int :=
  fun n => ((depsOf deps n).length : Int)

/-- The inner loop of Kahn's algorithm: for each `dependent` in
`graph[current]`, decrement its in-degree and enqueue it when the in-degree
reaches zero (`queue.push` appends at the end). -/
def processNeighbors : List String → (String → Int) → List String → (String → Int) × List String
  | [], indeg, queue => (indeg, queue)
  | dependent :: rest, indeg, queue =>
    let indeg' := fun m => if m = dependent then indeg m - 1 else indeg m
    let queue' := if indeg' dependent = 0 then queue ++ [dependent] else queue
    processNeighbors rest indeg' queue'

/-- The `while (queue.length > 0)` loop of Kahn's algorithm:
`queue.shift()` removes the head, the dequeued key is appended to `result`,
and its neighbors are processed.  The loop is expressed with a fuel
parameter; `resolveBuildOrder` supplies fuel that provably exceeds the
number of iterations the JS loop can perform, so the `0`-fuel branch is
never taken on configurations representable as JS objects. -/
def kahnRun (graph : String → List String) :
    Nat → (String → Int) → List String → List String → List String
  | 0, _, _, result => result
  | Nat.succ fuel, indeg, queue, result =>
    match queue with
    | [] => result
    | current :: restQueue =>
      let step := processNeighbors (graph current) indeg restQueue
      kahnRun graph fuel step.1 step.2 (result ++ [current])

/-- Fuel for `kahnRun`: every enqueue is either an initial seed (at most one
per active key) or follows an in-degree decrement (at most one per edge),
so the total number of dequeues is bounded by this quantity. -/
def kahnFuel (deps : List (String × DepConfig)) : Nat :=
  (activeNames deps).length + ((activeNames deps).map (fun n => (depsOf deps n).length)).sum

/-- JS `Array.prototype.indexOf`: the index of the first occurrence, `-1`
when absent. -/
def jsIndexOf (l : List String) (x : String) : Int :=
  if x ∈ l then (l.indexOf x : Int) else -1

/-- JS `Array.prototype.slice(i)` with a single argument: a non-negative
index drops that many elements, a negative index counts from the end
(clamped at the start of the array). -/
def jsSliceFrom (l : List String) (i : Int) : List String :=
  if 0 ≤ i then l.drop i.toNat else l.drop (l.length - (-i).toNat)

/-- State threaded through the DFS of `detectCycles`: the accumulated
cycles and the `visiting` / `visited` sets (kept as lists; only membership
is ever used, plus single-element insertion and deletion). -/
structure CycState where
  cycles : List (List String)
  visiting : List String
  visited : List String
  deriving Repr, DecidableEq

mutual

/-- The recursive `dfs(node, path)` of `detectCycles`
(`src/scripts/utils/dependency-resolver.js`, lines 156-179).  A node found
in `visiting` closes a cycle `path.slice(path.indexOf(node)) ++ [node]`;
an already-`visited` node is ignored; otherwise the node is pushed onto
`visiting` and `path`, its `deps` are visited in order (each child
receiving a copy of the extended path), and the node is moved from
`visiting` to `visited`.  Fuel bounds the recursion depth; the JS depth is
bounded by the number of distinct names, and `detectCycles` supplies fuel
above that bound. -/
def dfsCycles (deps : List (String × DepConfig)) :
    Nat → String → List String → CycState → CycState
  | 0, _, _, s => s
  | Nat.succ fuel, node, path, s =>
    if node ∈ s.visiting then
      let cycleStart := jsIndexOf path node
      let cycle := jsSliceFrom path cycleStart ++ [node]
      { s with cycles := s.cycles ++ [cycle] }
    else if node ∈ s.visited then s
    else
      let s1 : CycState := { s with visiting := s.visiting ++ [node] }
      let s2 := dfsCyclesList deps fuel (depsOf deps node) (path ++ [node]) s1
      { s2 with visiting := s2.visiting.erase node, visited := s2.visited ++ [node] }

/-- The `for (const dep of dependencies) dfs(dep, [...path])` loop inside
`dfs`, threading the shared state left to right. -/
def dfsCyclesList (deps : List (String × DepConfig)) :
    Nat → List String → List String → CycState → CycState
  | _, [], _, s => s
  | fuel, d :: ds, path, s => dfsCyclesList deps fuel ds path (dfsCycles deps fuel d path s)

end

/-- Fuel bound for the cycle DFS: every name reachable by the DFS is a key
or occurs in some entry's `deps` list, so the recursion depth of the JS
`dfs` is at most this quantity. -/
def cycleFuel (deps : List (String × DepConfig)) : Nat :=
  deps.length + (deps.map (fun p => (p.2.deps.getD []).length)).sum + 1

/-- `detectCycles(config, unvisited)`: run the DFS from every unvisited
node not yet marked `visited`, sharing one state, and return the collected
cycles. -/
def detectCycles (deps : List (String × DepConfig)) (unvisited : List String) :
    List (List String) :=
  (unvisited.foldl
    (fun s node => if node ∈ s.visited then s else dfsCycles deps (cycleFuel deps) node [] s)
    ⟨[], [], []⟩).cycles

/-- The error thrown by `resolveBuildOrder`, carrying the structured data
the source formats into the message. -/
inductive ResolveError where
  | skipViolation (violations : List (String × List String)) (message : String)
  | circular (cycles : List (List String)) (message : String)
  deriving Repr, DecidableEq

/-- The message of the skipped-dependency configuration error, formatted as
in the source. -/
def skipViolationMessage (violations : List (String × List String)) : String :=
  let errorMsg := String.intercalate "\n" (violations.map (fun v =>
    "  - \"" ++ v.1 ++ "\" depends on skipped: [" ++ String.intercalate ", " v.2 ++ "]"))
  "Build configuration error: Non-skipped dependencies cannot depend on skipped dependencies.\n" ++
  "\nViolations:\n" ++ errorMsg ++ "\n\n" ++
  "Please either:\n" ++
  "  1. Mark the dependent as skip: true\n" ++
  "  2. Remove the skipped dependency from its deps array\n" ++
  "  3. Remove skip: true from the dependency"

/-- The message of the circular-dependency error, formatted as in the
source. -/
def circularMessage (cycles : List (List String)) : String :=
  let cycleDescription := String.intercalate "\n  " (cycles.map (String.intercalate " -> "))
  "Circular dependencies detected! Build cannot proceed.\n" ++
  "Cycles found:\n  " ++ cycleDescription ++ "\n\n" ++
  "Please remove these circular dependencies from your buildConfig.json"

/-- `resolveBuildOrder(config)` (`src/scripts/utils/dependency-resolver.js`,
lines 14-142): returns `[]` for a null config or one without `deps`;
fails when an active dependency lists a skipped one; otherwise runs Kahn's
algorithm over the active keys and fails with the detected cycles when the
sort does not reach every active key. -/
def resolveBuildOrder (config : Option BuildConfig) : Except ResolveError (List String) :=
  match config with
  | none => Except.ok []
  | some cfg =>
    match cfg.deps with
    | none => Except.ok []
    | some deps =>
      let activeDeps := activeNames deps
      let invalidDeps := skipViolations deps
      if invalidDeps.isEmpty then
        let graph := graphOf deps
        let result := kahnRun graph (kahnFuel deps) (indegInit deps)
          (activeDeps.filter (fun n => indegInit deps n = 0)) []
        if result.length = activeDeps.length then
          Except.ok result
        else
          let unvisited := activeDeps.filter (fun n => !(result.contains n))
          let cycles := detectCycles deps unvisited
          Except.error (ResolveError.circular cycles (circularMessage cycles))
      else
        Except.error (ResolveError.skipViolation invalidDeps (skipViolationMessage invalidDeps))

/-- C10: `resolveBuildOrder` returns `[]` (and does not throw) on a
null/undefined configuration or on one whose `deps` field is absent. -/
theorem resolveBuildOrder_null_or_no_deps :
    resolveBuildOrder none = Except.ok [] ∧
    ∀ (v r : Option String),
      resolveBuildOrder (some { version := v, deps := none, releasesRoot := r }) =
        Except.ok [] := by
  exact ⟨rfl, fun v r => rfl⟩

/-! ### Cycle shape: every reported cycle closes along `deps` edges -/

/-- The edge relation of the dependency DFS: `y` is listed in `x`'s
`deps`. -/
def depsEdge (deps : List (String × DepConfig)) (x y : String) : Prop :=
  y ∈ depsOf deps x

instance (deps : List (String × DepConfig)) : DecidableRel (depsEdge deps) :=
  fun x y => inferInstanceAs (Decidable (y ∈ depsOf deps x))

/-- A list of keys is a closed `deps`-walk: at least two entries, the first
and last entries coincide, and each entry after the first is listed in the
`deps` of its predecessor. -/
def ClosesViaDeps (deps : List (String × DepConfig)) (c : List String) : Prop :=
  2 ≤ c.length ∧ c.head? = c.getLast? ∧ List.Chain' (depsEdge deps) c

instance (deps : List (String × DepConfig)) (c : List String) :
    Decidable (ClosesViaDeps deps c) :=
  inferInstanceAs (Decidable (_ ∧ _ ∧ _))

/-- The DFS of `detectCycles` restores the `visiting` set exactly: every
call either leaves it untouched or appends `node` and erases it again. -/
theorem dfsCycles_visiting (deps : List (String × DepConfig)) :
    ∀ fuel : Nat,
      (∀ node path s, (dfsCycles deps fuel node path s).visiting = s.visiting) ∧
      (∀ ds path s, (dfsCyclesList deps fuel ds path s).visiting = s.visiting) := by
  intro fuel
  induction fuel with
  | zero =>
    constructor
    · intro node path s; rw [dfsCycles]
    · intro ds
      induction ds with
      | nil => intro path s; rw [dfsCyclesList]
      | cons d ds ih =>
        intro path s
        rw [dfsCyclesList, ih, dfsCycles]
  | succ fuel ih =>
    have main : ∀ node path s, (dfsCycles deps (fuel + 1) node path s).visiting = s.visiting := by
      intro node path s
      rw [dfsCycles]
      by_cases h1 : node ∈ s.visiting
      · simp only [if_pos h1]
      · simp only [if_neg h1]
        by_cases h2 : node ∈ s.visited
        · simp only [if_pos h2]
        · simp only [if_neg h2, ih.2]
          rw [List.erase_append_right _ h1, List.erase_cons_head, List.append_nil]
    refine ⟨main, ?_⟩
    intro ds
    induction ds with
    | nil => intro path s; rw [dfsCyclesList]
    | cons d ds ihds =>
      intro path s
      rw [dfsCyclesList, ihds, main]

/-- Cycle-shape invariant of the DFS: provided `visiting` mirrors the
current `path`, the path is a `deps`-walk, and the entry node extends it by
one `deps` edge, every cycle the DFS records is a closed `deps`-walk. -/
theorem dfsCycles_closed (deps : List (String × DepConfig)) :
    ∀ fuel : Nat,
      (∀ node path s,
        (∀ x, x ∈ s.visiting ↔ x ∈ path) →
        List.Chain' (depsEdge deps) path →
        (∀ x ∈ path.getLast?, node ∈ depsOf deps x) →
        (∀ c ∈ s.cycles, ClosesViaDeps deps c) →
        ∀ c ∈ (dfsCycles deps fuel node path s).cycles, ClosesViaDeps deps c) ∧
      (∀ ds path s,
        (∀ x, x ∈ s.visiting ↔ x ∈ path) →
        List.Chain' (depsEdge deps) path →
        (∀ d ∈ ds, ∀ x ∈ path.getLast?, d ∈ depsOf deps x) →
        (∀ c ∈ s.cycles, ClosesViaDeps deps c) →
        ∀ c ∈ (dfsCyclesList deps fuel ds path s).cycles, ClosesViaDeps deps c) := by
  intro fuel
  induction fuel with
  | zero =>
    constructor
    · intro node path s _ _ _ hok
      rw [dfsCycles]; exact hok
    · intro ds
      induction ds with
      | nil => intro path s _ _ _ hok; rw [dfsCyclesList]; exact hok
      | cons d ds ih =>
        intro path s hv hchain hentry hok
        rw [dfsCyclesList, dfsCycles]
        exact ih path s hv hchain (fun d' hd' => hentry d' (List.mem_cons_of_mem _ hd')) hok
  | succ fuel ih =>
    have main : ∀ node path s,
        (∀ x, x ∈ s.visiting ↔ x ∈ path) →
        List.Chain' (depsEdge deps) path →
        (∀ x ∈ path.getLast?, node ∈ depsOf deps x) →
        (∀ c ∈ s.cycles, ClosesViaDeps deps c) →
        ∀ c ∈ (dfsCycles deps (fuel + 1) node path s).cycles, ClosesViaDeps deps c := by
      intro node path s hv hchain hentry hok
      rw [dfsCycles]
      by_cases h1 : node ∈ s.visiting
      · simp only [if_pos h1]
        intro c hc
        rw [List.mem_append] at hc
        rcases hc with hc | hc
        · exact hok c hc
        · rw [List.mem_singleton] at hc
          subst hc
          have hmem : node ∈ path := (hv node).mp h1
          have hpne : path ≠ [] := List.ne_nil_of_mem hmem
          have hk : List.indexOf node path < path.length := List.indexOf_lt_length.mpr hmem
          have hidx : jsIndexOf path node = (List.indexOf node path : Int) := by
            unfold jsIndexOf; rw [if_pos hmem]
          have hslice : jsSliceFrom path (jsIndexOf path node) =
              path.drop (List.indexOf node path) := by
            rw [hidx]; unfold jsSliceFrom
            rw [if_pos (Int.natCast_nonneg _), Int.toNat_natCast]
          rw [hslice]
          set k := List.indexOf node path with hkdef
          have hdne : path.drop k ≠ [] := by
            apply List.ne_nil_of_length_pos
            rw [List.length_drop]
            omega
          have hhead : (path.drop k).head? = some node := by
            rw [List.head?_eq_getElem?]
            rw [List.getElem?_eq_getElem (by rw [List.length_drop]; omega)]
            rw [List.getElem_drop]
            simp only [Nat.add_zero]
            rw [List.getElem_indexOf hk]
          have hlast : (path.drop k).getLast? = path.getLast? := by
            rw [List.getLast?_eq_getLast _ hdne, List.getLast_drop,
              List.getLast?_eq_getLast _ hpne]
          refine ⟨?_, ?_, ?_⟩
          · rw [List.length_append, List.length_singleton]
            have : 0 < (path.drop k).length := List.length_pos.mpr hdne
            omega
          · rw [List.head?_append, hhead, List.getLast?_concat]
            rfl
          · rw [List.chain'_append]
            refine ⟨hchain.drop k, List.chain'_singleton node, ?_⟩
            intro x hx y hy
            rw [List.head?_cons, Option.mem_def, Option.some.injEq] at hy
            subst hy
            rw [hlast] at hx
            exact hentry x hx
      · simp only [if_neg h1]
        by_cases h2 : node ∈ s.visited
        · simp only [if_pos h2]; exact hok
        · simp only [if_neg h2]
          intro c hc
          refine (ih.2 (depsOf deps node) (path ++ [node])
            { s with visiting := s.visiting ++ [node] } ?_ ?_ ?_ hok) c hc
          · intro x
            simp only [List.mem_append, List.mem_singleton, hv x]
          · rw [List.chain'_append]
            refine ⟨hchain, List.chain'_singleton node, ?_⟩
            intro x hx y hy
            rw [List.head?_cons, Option.mem_def, Option.some.injEq] at hy
            subst hy
            exact hentry x hx
          · intro d hd x hx
            rw [List.getLast?_concat, Option.mem_def, Option.some.injEq] at hx
            subst hx
            exact hd
    refine ⟨main, ?_⟩
    intro ds
    induction ds with
    | nil => intro path s _ _ _ hok; rw [dfsCyclesList]; exact hok
    | cons d ds ihds =>
      intro path s hv hchain hentry hok
      rw [dfsCyclesList]
      refine ihds path (dfsCycles deps (fuel + 1) d path s) ?_ hchain
        (fun d' hd' => hentry d' (List.mem_cons_of_mem _ hd')) ?_
      · intro x
        rw [(dfsCycles_visiting deps (fuel + 1)).1 d path s]
        exact hv x
      · exact main d path s hv hchain (hentry d (List.mem_cons_self d ds)) hok

/-- Every cycle returned by `detectCycles` is a closed `deps`-walk. -/
theorem detectCycles_closed (deps : List (String × DepConfig)) (unvisited : List String) :
    ∀ c ∈ detectCycles deps unvisited, ClosesViaDeps deps c := by
  unfold detectCycles
  suffices h : ∀ (l : List String) (s : CycState), s.visiting = [] →
      (∀ c ∈ s.cycles, ClosesViaDeps deps c) →
      ∀ c ∈ (l.foldl (fun s node =>
          if node ∈ s.visited then s else dfsCycles deps (cycleFuel deps) node [] s) s).cycles,
        ClosesViaDeps deps c by
    exact h unvisited ⟨[], [], []⟩ rfl (by intro c hc; cases hc)
  intro l
  induction l with
  | nil => intro s _ hok; exact hok
  | cons node rest ih =>
    intro s hvempty hok
    rw [List.foldl_cons]
    by_cases h2 : node ∈ s.visited
    · rw [if_pos h2]; exact ih s hvempty hok
    · rw [if_neg h2]
      refine ih _ ?_ ?_
      · rw [(dfsCycles_visiting deps (cycleFuel deps)).1 node [] s]; exact hvempty
      · refine (dfsCycles_closed deps (cycleFuel deps)).1 node [] s ?_ ?_ ?_ hok
        · intro x; rw [hvempty]
        · exact List.chain'_nil
        · intro x hx; cases hx

/-! ### Kahn's algorithm: invariants -/

/-- Bridge between `List.contains` and membership. -/
theorem contains_eq_decide (l : List String) (a : String) :
    l.contains a = decide (a ∈ l) := by
  by_cases h : a ∈ l
  · rw [decide_eq_true h]
    exact List.elem_iff.mpr h
  · rw [decide_eq_false h]
    rw [← Bool.not_eq_true]
    intro hc
    exact h (List.elem_iff.mp hc)

/-- `indexOf` looks only at the first list when the element occurs there. -/
theorem indexOf_append_left (a : String) :
    ∀ (l₁ l₂ : List String), a ∈ l₁ →
      List.indexOf a (l₁ ++ l₂) = List.indexOf a l₁ := by
  intro l₁
  induction l₁ with
  | nil => intro l₂ h; cases h
  | cons x xs ih =>
    intro l₂ h
    rw [List.cons_append, List.indexOf_cons, List.indexOf_cons]
    by_cases hx : x = a
    · rw [hx, beq_self_eq_true]; rfl
    · rw [beq_eq_false_iff_ne.mpr hx]
      have hmem : a ∈ xs := by
        rcases List.mem_cons.mp h with h' | h'
        · exact absurd h'.symm hx
        · exact h'
      simp only [cond_false, ih l₂ hmem]

/-- `indexOf` skips the whole first list when the element is absent from
it. -/
theorem indexOf_append_right (a : String) :
    ∀ (l₁ l₂ : List String), a ∉ l₁ →
      List.indexOf a (l₁ ++ l₂) = l₁.length + List.indexOf a l₂ := by
  intro l₁
  induction l₁ with
  | nil => intro l₂ _; rw [List.nil_append, List.length_nil, Nat.zero_add]
  | cons x xs ih =>
    intro l₂ h
    have hx : x ≠ a := fun e => h (e ▸ List.mem_cons_self x xs)
    rw [List.cons_append, List.indexOf_cons, beq_eq_false_iff_ne.mpr hx]
    simp only [cond_false]
    rw [ih l₂ (fun hm => h (List.mem_cons_of_mem x hm)), List.length_cons]
    omega

/-- `count` of an element equals the length of the filter keeping exactly
that element. -/
theorem count_eq_length_filter_eq (d : String) :
    ∀ l : List String, List.count d l = (l.filter (fun x => x = d)).length := by
  intro l
  induction l with
  | nil => rfl
  | cons x xs ih =>
    rw [List.count_cons, List.filter_cons]
    by_cases h : x = d
    · subst h
      simp [ih]
    · simp [h, ih]

/-- Occurrence count in the adjacency lists built by `resolveBuildOrder`:
for a duplicate-free key list, node `n` occurs in `graphOf deps d` once per
occurrence of `d` in `n`'s `deps`, and only when `n` is active. -/
theorem count_flatMap_occ (deps : List (String × DepConfig)) (d n : String) :
    ∀ l : List String, l.Nodup →
      List.count n (l.flatMap (fun m => ((depsOf deps m).filter (fun x => x = d)).map
        (fun _ => m))) =
        if n ∈ l then List.count d (depsOf deps n) else 0 := by
  intro l
  induction l with
  | nil => intro _; simp
  | cons m rest ih =>
    intro hnd
    rw [List.flatMap_cons, List.count_append]
    have hrest := ih (List.Nodup.of_cons hnd)
    have hcount_head : List.count n (((depsOf deps m).filter (fun x => x = d)).map
        (fun _ => m)) = if m = n then List.count d (depsOf deps m) else 0 := by
      rw [List.map_const', List.count_replicate]
      by_cases h : m = n
      · subst h
        rw [if_pos rfl, if_pos (by exact beq_self_eq_true m), count_eq_length_filter_eq]
      · rw [if_neg (by rw [beq_eq_false_iff_ne.mpr h]; exact Bool.false_ne_true), if_neg h]
    rw [hcount_head, hrest]
    have hm_rest : m ∉ rest := (List.nodup_cons.mp hnd).1
    by_cases h : m = n
    · subst h
      rw [if_pos rfl, if_pos (List.mem_cons_self m rest), if_neg hm_rest, Nat.add_zero]
    · rw [if_neg h]
      by_cases hn : n ∈ rest
      · rw [if_pos hn, if_pos (List.mem_cons_of_mem m hn), Nat.zero_add]
      · rw [if_neg hn, Nat.add_zero,
          if_neg (fun hc => (List.mem_cons.mp hc).elim (fun e => h e.symm) hn)]

/-- Occurrence count in the adjacency lists: for a duplicate-free active
list, node `n` occurs in `graphOf deps d` once per occurrence of `d` in
`n`'s `deps`, and only when `n` is active. -/
theorem count_graphOf (deps : List (String × DepConfig))
    (hA : (activeNames deps).Nodup) (d n : String) :
    List.count n (graphOf deps d) =
      if n ∈ activeNames deps then List.count d (depsOf deps n) else 0 := by
  unfold graphOf
  exact count_flatMap_occ deps d n (activeNames deps) hA

/-- Membership in the adjacency lists: the dependents of `d` are exactly
the active keys listing `d` in their `deps`. -/
theorem mem_graphOf (deps : List (String × DepConfig)) (d n : String) :
    n ∈ graphOf deps d ↔ n ∈ activeNames deps ∧ d ∈ depsOf deps n := by
  unfold graphOf
  rw [List.mem_flatMap]
  constructor
  · rintro ⟨m, hm, hn⟩
    rw [List.mem_map] at hn
    obtain ⟨x, hx, rfl⟩ := hn
    rw [List.mem_filter] at hx
    have : x = d := of_decide_eq_true hx.2
    exact ⟨hm, this ▸ hx.1⟩
  · rintro ⟨hact, hd⟩
    refine ⟨n, hact, ?_⟩
    rw [List.mem_map]
    exact ⟨d, List.mem_filter.mpr ⟨hd, decide_eq_true rfl⟩, rfl⟩

/-- Appending a fresh element to the exclusion list of the filter splits
off exactly the occurrences of that element. -/
theorem length_filter_concat (c : String) (r : List String) (hc : c ∉ r) :
    ∀ l : List String,
      (l.filter (fun b => !(r.contains b))).length =
        (l.filter (fun b => !((r ++ [c]).contains b))).length + List.count c l := by
  intro l
  induction l with
  | nil => rfl
  | cons x xs ih =>
    rw [List.filter_cons, List.filter_cons, List.count_cons]
    by_cases hx : x = c
    · subst hx
      have h1 : r.contains x = false := by
        rw [contains_eq_decide, decide_eq_false hc]
      have h2 : (r ++ [x]).contains x = true := by
        rw [contains_eq_decide,
          decide_eq_true (List.mem_append.mpr (Or.inr (List.mem_singleton.mpr rfl)))]
      rw [h1, h2, Bool.not_false, Bool.not_true, if_pos rfl,
        if_neg (fun h => Bool.false_ne_true h), beq_self_eq_true, if_pos rfl,
        List.length_cons, ih]
      omega
    · have hxc : (x == c) = false := beq_eq_false_iff_ne.mpr hx
      have hsame : ((r ++ [c]).contains x) = (r.contains x) := by
        rw [contains_eq_decide, contains_eq_decide]
        by_cases hr : x ∈ r
        · rw [decide_eq_true hr,
            decide_eq_true (List.mem_append.mpr (Or.inl hr))]
        · rw [decide_eq_false hr, decide_eq_false (fun hm => by
            rcases List.mem_append.mp hm with h | h
            · exact hr h
            · exact hx (List.mem_singleton.mp h))]
      rw [hsame, hxc, if_neg (fun h => Bool.false_ne_true h)]
      by_cases hr : x ∈ r
      · have h1 : r.contains x = true := by rw [contains_eq_decide, decide_eq_true hr]
        rw [h1, Bool.not_true, if_neg (fun h => Bool.false_ne_true h),
          if_neg (fun h => Bool.false_ne_true h), ih]
        omega
      · have h1 : r.contains x = false := by rw [contains_eq_decide, decide_eq_false hr]
        rw [h1, Bool.not_false, if_pos rfl, if_pos rfl, List.length_cons, List.length_cons,
          ih]
        omega

/-- After processing a neighbor list, each in-degree has been decremented
once per occurrence of the node in that list. -/
theorem processNeighbors_indeg :
    ∀ (L : List String) (indeg : String → Int) (q : List String),
      (processNeighbors L indeg q).1 = fun m => indeg m - (List.count m L : Int) := by
  intro L
  induction L with
  | nil =>
    intro indeg q
    funext m
    rw [processNeighbors]
    simp
  | cons dep rest ih =>
    intro indeg q
    rw [processNeighbors]
    rw [ih]
    funext m
    by_cases h : m = dep
    · subst h
      rw [if_pos rfl, List.count_cons, beq_self_eq_true, if_pos rfl]
      push_cast
      ring
    · rw [if_neg h, List.count_cons, beq_eq_false_iff_ne.mpr (fun e => h e.symm),
        if_neg (fun hh => Bool.false_ne_true hh), Nat.add_zero]

/-- Processing a neighbor list only appends to the queue, and every
appended node comes from the list. -/
theorem processNeighbors_queue_sub :
    ∀ (L : List String) (indeg : String → Int) (q : List String),
      ∃ qnew, (processNeighbors L indeg q).2 = q ++ qnew ∧ ∀ n ∈ qnew, n ∈ L := by
  intro L
  induction L with
  | nil =>
    intro indeg q
    exact ⟨[], by rw [processNeighbors, List.append_nil], fun n h => absurd h (List.not_mem_nil n)⟩
  | cons dep rest ih =>
    intro indeg q
    rw [processNeighbors]
    by_cases h : (if dep = dep then indeg dep - 1 else indeg dep) = 0
    · rw [if_pos h]
      obtain ⟨qnew, heq, hsub⟩ := ih _ (q ++ [dep])
      refine ⟨dep :: qnew, ?_, ?_⟩
      · rw [heq, List.append_assoc, List.singleton_append]
      · intro n hn
        rcases List.mem_cons.mp hn with h' | h'
        · rw [h']; exact List.mem_cons_self dep rest
        · exact List.mem_cons_of_mem dep (hsub n h')
    · rw [if_neg h]
      obtain ⟨qnew, heq, hsub⟩ := ih _ q
      exact ⟨qnew, heq, fun n hn => List.mem_cons_of_mem dep (hsub n hn)⟩

/-- Push guarantee: a node of the neighbor list whose in-degree equals its
occurrence count in the list ends up in the queue. -/
theorem processNeighbors_push :
    ∀ (L : List String) (indeg : String → Int) (q : List String) (n : String),
      n ∈ L → indeg n = (List.count n L : Int) →
      n ∈ (processNeighbors L indeg q).2 := by
  intro L
  induction L with
  | nil => intro indeg q n hn; cases hn
  | cons dep rest ih =>
    intro indeg q n hn hdeg
    rw [processNeighbors]
    by_cases hmem : n ∈ rest
    · refine ih _ _ n hmem ?_
      by_cases h : n = dep
      · subst h
        rw [if_pos rfl]
        rw [List.count_cons, beq_self_eq_true, if_pos rfl] at hdeg
        push_cast at hdeg ⊢
        omega
      · rw [if_neg h]
        rw [List.count_cons, beq_eq_false_iff_ne.mpr (fun e => h e.symm),
          if_neg (fun hh => Bool.false_ne_true hh), Nat.add_zero] at hdeg
        exact hdeg
    · have hn_dep : n = dep := by
        rcases List.mem_cons.mp hn with h' | h'
        · exact h'
        · exact absurd h' hmem
      subst hn_dep
      rw [List.count_cons, beq_self_eq_true, if_pos rfl,
        List.count_eq_zero.mpr hmem, Nat.zero_add] at hdeg
      have hz : (if n = n then indeg n - 1 else indeg n) = 0 := by
        rw [if_pos rfl, hdeg]
        omega
      rw [if_pos hz]
      obtain ⟨qnew, heq, _⟩ := processNeighbors_queue_sub rest _ (q ++ [n])
      rw [heq]
      exact List.mem_append.mpr (Or.inl (List.mem_append.mpr
        (Or.inr (List.mem_singleton.mpr rfl))))

/-- Characterization of the freshly pushed nodes: when no in-degree
undershoots its occurrence count, the pushed nodes are exactly recorded by
their occurrence count reaching their in-degree, each pushed at most
once. -/
theorem processNeighbors_new :
    ∀ (L : List String) (indeg : String → Int) (q : List String),
      (∀ m ∈ L, (List.count m L : Int) ≤ indeg m) →
      ∃ qnew, (processNeighbors L indeg q).2 = q ++ qnew ∧ qnew.Nodup ∧
        ∀ n ∈ qnew, n ∈ L ∧ indeg n = (List.count n L : Int) := by
  intro L
  induction L with
  | nil =>
    intro indeg q _
    exact ⟨[], by rw [processNeighbors, List.append_nil],
      List.nodup_nil, fun n h => absurd h (List.not_mem_nil n)⟩
  | cons dep rest ih =>
    intro indeg q hno
    rw [processNeighbors]
    have hdep_count : (List.count dep (dep :: rest) : Int) ≤ indeg dep :=
      hno dep (List.mem_cons_self dep rest)
    rw [List.count_cons, beq_self_eq_true, if_pos rfl] at hdep_count
    by_cases hz : (if dep = dep then indeg dep - 1 else indeg dep) = 0
    · rw [if_pos hz]
      rw [if_pos rfl] at hz
      have hdep_one : indeg dep = 1 := by omega
      have hdep_rest : List.count dep rest = 0 := by
        push_cast at hdep_count
        omega
      have hdep_notin : dep ∉ rest := List.count_eq_zero.mp hdep_rest
      have hno' : ∀ m ∈ rest, (List.count m rest : Int) ≤
          (if m = dep then indeg m - 1 else indeg m) := by
        intro m hm
        by_cases h : m = dep
        · subst h; exact absurd hm hdep_notin
        · rw [if_neg h]
          have := hno m (List.mem_cons_of_mem dep hm)
          rw [List.count_cons, beq_eq_false_iff_ne.mpr (fun e => h e.symm),
            if_neg (fun hh => Bool.false_ne_true hh), Nat.add_zero] at this
          exact this
      obtain ⟨qnew, heq, hnd, hprop⟩ := ih _ (q ++ [dep]) hno'
      refine ⟨dep :: qnew, ?_, ?_, ?_⟩
      · rw [heq, List.append_assoc, List.singleton_append]
      · rw [List.nodup_cons]
        exact ⟨fun hc => hdep_notin ((hprop dep hc).1), hnd⟩
      · intro n hn
        rcases List.mem_cons.mp hn with h' | h'
        · subst h'
          refine ⟨List.mem_cons_self n rest, ?_⟩
          rw [List.count_cons, beq_self_eq_true, if_pos rfl,
            List.count_eq_zero.mpr hdep_notin, Nat.zero_add]
          push_cast
          omega
        · obtain ⟨hmem, hval⟩ := hprop n h'
          have hne : n ≠ dep := fun e => hdep_notin (e ▸ hmem)
          rw [if_neg hne] at hval
          refine ⟨List.mem_cons_of_mem dep hmem, ?_⟩
          rw [List.count_cons, beq_eq_false_iff_ne.mpr (fun e => hne e.symm),
            if_neg (fun hh => Bool.false_ne_true hh), Nat.add_zero]
          exact hval
    · rw [if_neg hz]
      rw [if_pos rfl] at hz
      have hno' : ∀ m ∈ rest, (List.count m rest : Int) ≤
          (if m = dep then indeg m - 1 else indeg m) := by
        intro m hm
        by_cases h : m = dep
        · subst h
          rw [if_pos rfl]
          have := hno m (List.mem_cons_self m rest)
          rw [List.count_cons, beq_self_eq_true, if_pos rfl] at this
          push_cast at this ⊢
          omega
        · rw [if_neg h]
          have := hno m (List.mem_cons_of_mem dep hm)
          rw [List.count_cons, beq_eq_false_iff_ne.mpr (fun e => h e.symm),
            if_neg (fun hh => Bool.false_ne_true hh), Nat.add_zero] at this
          exact this
      obtain ⟨qnew, heq, hnd, hprop⟩ := ih _ q hno'
      refine ⟨qnew, heq, hnd, ?_⟩
      intro n hn
      obtain ⟨hmem, hval⟩ := hprop n hn
      by_cases h : n = dep
      · subst h
        rw [if_pos rfl] at hval
        refine ⟨List.mem_cons_self n rest, ?_⟩
        rw [List.count_cons, beq_self_eq_true, if_pos rfl]
        push_cast at hval ⊢
        omega
      · rw [if_neg h] at hval
        refine ⟨List.mem_cons_of_mem dep hmem, ?_⟩
        rw [List.count_cons, beq_eq_false_iff_ne.mpr (fun e => h e.symm),
          if_neg (fun hh => Bool.false_ne_true hh), Nat.add_zero]
        exact hval

/-- Loop invariant of Kahn's algorithm in `resolveBuildOrder`, relating the
in-degree map, the queue and the result accumulated so far. -/
structure KahnInv (deps : List (String × DepConfig)) (indeg : String → Int)
    (queue result : List String) : Prop where
  nodup : (result ++ queue).Nodup
  subset : ∀ n ∈ result ++ queue, n ∈ activeNames deps
  indeg_eq : ∀ n ∈ activeNames deps,
    indeg n = (((depsOf deps n).filter (fun b => !(result.contains b))).length : Int)
  queue_deps : ∀ n ∈ queue, ∀ b ∈ depsOf deps n, b ∈ result
  result_ord : ∀ n ∈ result, ∀ b ∈ depsOf deps n,
    b ∈ result ∧ List.indexOf b result < List.indexOf n result
  complete : ∀ n ∈ activeNames deps, (∀ b ∈ depsOf deps n, b ∈ result) →
    n ∈ result ∨ n ∈ queue

/-- One iteration of the Kahn loop preserves the invariant: the dequeued key
moves to the end of the result and the freshly zeroed dependents join the
queue. -/
theorem kahnInv_step (deps : List (String × DepConfig)) (hkeys : (depKeys deps).Nodup)
    {indeg : String → Int} {current : String} {restQ result : List String}
    (inv : KahnInv deps indeg (current :: restQ) result) :
    KahnInv deps (processNeighbors (graphOf deps current) indeg restQ).1
      (processNeighbors (graphOf deps current) indeg restQ).2 (result ++ [current]) := by
  have hA : (activeNames deps).Nodup := hkeys.filter _
  obtain ⟨hres_nd, hq_nd, hdisj⟩ := List.nodup_append.mp inv.nodup
  have hcur_q : current ∈ current :: restQ := List.mem_cons_self current restQ
  have hcur_act : current ∈ activeNames deps :=
    inv.subset current (List.mem_append.mpr (Or.inr hcur_q))
  have hcur_not_res : current ∉ result := fun h => hdisj h hcur_q
  have hcur_not_restQ : current ∉ restQ := (List.nodup_cons.mp hq_nd).1
  have hcontains_cur : result.contains current = false := by
    rw [contains_eq_decide, decide_eq_false hcur_not_res]
  have hcountL : ∀ n, n ∈ activeNames deps →
      List.count n (graphOf deps current) = List.count current (depsOf deps n) := by
    intro n hn
    rw [count_graphOf deps hA current n, if_pos hn]
  have hcount_keep : ∀ n,
      List.count current ((depsOf deps n).filter (fun b => !(result.contains b))) =
        List.count current (depsOf deps n) :=
    fun n => List.count_filter (by rw [hcontains_cur]; rfl)
  have hno : ∀ m ∈ graphOf deps current,
      (List.count m (graphOf deps current) : Int) ≤ indeg m := by
    intro m hm
    obtain ⟨hact, _⟩ := (mem_graphOf deps current m).mp hm
    rw [hcountL m hact, inv.indeg_eq m hact]
    have h1 := hcount_keep m
    have h2 := List.count_le_length current
      ((depsOf deps m).filter (fun b => !(result.contains b)))
    omega
  obtain ⟨qnew, hq_eq, hqnew_nd, hqnew_prop⟩ :=
    processNeighbors_new (graphOf deps current) indeg restQ hno
  have hfresh : ∀ n ∈ qnew, n ∉ result ∧ n ≠ current ∧ n ∉ restQ := by
    intro n hn
    obtain ⟨hnL, _⟩ := hqnew_prop n hn
    obtain ⟨hn_act, hcur_dep⟩ := (mem_graphOf deps current n).mp hnL
    refine ⟨?_, ?_, ?_⟩
    · intro hres
      exact hcur_not_res (inv.result_ord n hres current hcur_dep).1
    · intro he
      rw [he] at hcur_dep
      exact hcur_not_res (inv.queue_deps current hcur_q current hcur_dep)
    · intro hrq
      exact hcur_not_res
        (inv.queue_deps n (List.mem_cons_of_mem current hrq) current hcur_dep)
  have hindeg' := processNeighbors_indeg (graphOf deps current) indeg restQ
  have hassoc : (result ++ [current]) ++ (restQ ++ qnew) =
      (result ++ current :: restQ) ++ qnew := by
    simp [List.append_assoc]
  constructor
  · rw [hq_eq, hassoc, List.nodup_append]
    refine ⟨inv.nodup, hqnew_nd, ?_⟩
    intro x hx hxq
    obtain ⟨h1, h2, h3⟩ := hfresh x hxq
    rcases List.mem_append.mp hx with h | h
    · exact h1 h
    · rcases List.mem_cons.mp h with h | h
      · exact h2 h
      · exact h3 h
  · intro n hn
    rw [hq_eq] at hn
    rcases List.mem_append.mp hn with h | h
    · rcases List.mem_append.mp h with h | h
      · exact inv.subset n (List.mem_append.mpr (Or.inl h))
      · rw [List.mem_singleton.mp h]
        exact hcur_act
    · rcases List.mem_append.mp h with h | h
      · exact inv.subset n (List.mem_append.mpr (Or.inr (List.mem_cons_of_mem current h)))
      · exact ((mem_graphOf deps current n).mp (hqnew_prop n h).1).1
  · intro n hn
    rw [hindeg']
    show indeg n - (List.count n (graphOf deps current) : Int) = _
    rw [inv.indeg_eq n hn, hcountL n hn]
    have := length_filter_concat current result hcur_not_res (depsOf deps n)
    omega
  · intro n hn b hb
    rw [hq_eq] at hn
    rcases List.mem_append.mp hn with h | h
    · exact List.mem_append.mpr (Or.inl
        (inv.queue_deps n (List.mem_cons_of_mem current h) b hb))
    · obtain ⟨hnL, hnval⟩ := hqnew_prop n h
      obtain ⟨hn_act, hcur_dep⟩ := (mem_graphOf deps current n).mp hnL
      rw [inv.indeg_eq n hn_act, hcountL n hn_act] at hnval
      have hcnt : List.count current
          ((depsOf deps n).filter (fun b => !(result.contains b))) =
          ((depsOf deps n).filter (fun b => !(result.contains b))).length := by
        have := hcount_keep n
        omega
      have hall := List.count_eq_length.mp hcnt
      by_cases hbres : b ∈ result
      · exact List.mem_append.mpr (Or.inl hbres)
      · have hbf : b ∈ (depsOf deps n).filter (fun b => !(result.contains b)) := by
          rw [List.mem_filter]
          refine ⟨hb, ?_⟩
          rw [contains_eq_decide, decide_eq_false hbres]
          rfl
        rw [← hall b hbf]
        exact List.mem_append.mpr (Or.inr (List.mem_singleton.mpr rfl))
  · intro n hn b hb
    rcases List.mem_append.mp hn with h | h
    · obtain ⟨hbres, hlt⟩ := inv.result_ord n h b hb
      refine ⟨List.mem_append.mpr (Or.inl hbres), ?_⟩
      rw [indexOf_append_left b result [current] hbres,
        indexOf_append_left n result [current] h]
      exact hlt
    · have hn_cur : n = current := List.mem_singleton.mp h
      subst hn_cur
      have hbres : b ∈ result := inv.queue_deps n hcur_q b hb
      refine ⟨List.mem_append.mpr (Or.inl hbres), ?_⟩
      rw [indexOf_append_left b result [n] hbres,
        indexOf_append_right n result [n] hcur_not_res]
      have := List.indexOf_lt_length.mpr hbres
      omega
  · intro n hn hall
    by_cases hallold : ∀ b ∈ depsOf deps n, b ∈ result
    · rcases inv.complete n hn hallold with h | h
      · exact Or.inl (List.mem_append.mpr (Or.inl h))
      · rcases List.mem_cons.mp h with h | h
        · exact Or.inl (List.mem_append.mpr (Or.inr (List.mem_singleton.mpr h)))
        · refine Or.inr ?_
          rw [hq_eq]
          exact List.mem_append.mpr (Or.inl h)
    · push_neg at hallold
      obtain ⟨b0, hb0, hb0res⟩ := hallold
      have hb0cur : b0 = current := by
        rcases List.mem_append.mp (hall b0 hb0) with h | h
        · exact absurd h hb0res
        · exact List.mem_singleton.mp h
      have hb0' : current ∈ depsOf deps n := hb0cur ▸ hb0
      have hb0res' : current ∉ result := hb0cur ▸ hb0res
      have hnL : n ∈ graphOf deps current := (mem_graphOf deps current n).mpr ⟨hn, hb0'⟩
      have hfilter_all : ∀ b ∈ (depsOf deps n).filter (fun b => !(result.contains b)),
          current = b := by
        intro b hbf
        obtain ⟨hbd, hbc⟩ := List.mem_filter.mp hbf
        have hbnres : b ∉ result := by
          intro hbr
          rw [contains_eq_decide, decide_eq_true hbr] at hbc
          exact Bool.false_ne_true hbc
        rcases List.mem_append.mp (hall b hbd) with h | h
        · exact absurd h hbnres
        · exact (List.mem_singleton.mp h).symm
      have hcnt : List.count current
          ((depsOf deps n).filter (fun b => !(result.contains b))) =
          ((depsOf deps n).filter (fun b => !(result.contains b))).length :=
        List.count_eq_length.mpr hfilter_all
      have hdegn : indeg n = (List.count n (graphOf deps current) : Int) := by
        rw [inv.indeg_eq n hn, hcountL n hn]
        have := hcount_keep n
        omega
      exact Or.inr (processNeighbors_push (graphOf deps current) indeg restQ n hnL hdegn)

/-- The elements tracked by the invariant fit inside the active keys. -/
theorem kahnInv_length (deps : List (String × DepConfig)) {indeg : String → Int}
    {queue result : List String} (inv : KahnInv deps indeg queue result) :
    result.length + queue.length ≤ (activeNames deps).length := by
  have hsub : (result ++ queue).Subperm (activeNames deps) :=
    List.Nodup.subperm inv.nodup (fun x hx => inv.subset x hx)
  have := hsub.length_le
  rw [List.length_append] at this
  exact this

/-- Running the Kahn loop with enough fuel drains the queue while
preserving the invariant. -/
theorem kahnRun_spec (deps : List (String × DepConfig)) (hkeys : (depKeys deps).Nodup) :
    ∀ (fuel : Nat) (indeg : String → Int) (queue result : List String),
      KahnInv deps indeg queue result →
      (activeNames deps).length ≤ result.length + fuel →
      ∃ indeg', KahnInv deps indeg' []
        (kahnRun (graphOf deps) fuel indeg queue result) := by
  intro fuel
  induction fuel with
  | zero =>
    intro indeg queue result inv hb
    cases queue with
    | nil => rw [kahnRun]; exact ⟨indeg, inv⟩
    | cons c q =>
      exfalso
      have := kahnInv_length deps inv
      rw [List.length_cons] at this
      omega
  | succ fuel ih =>
    intro indeg queue result inv hb
    cases queue with
    | nil => rw [kahnRun]; exact ⟨indeg, inv⟩
    | cons current restQ =>
      rw [kahnRun]
      refine ih _ _ _ (kahnInv_step deps hkeys inv) ?_
      rw [List.length_append, List.length_singleton]
      omega

/-- The invariant holds at the start of the Kahn loop of
`resolveBuildOrder`: empty result, queue seeded with the zero-in-degree
active keys. -/
theorem kahnInv_init (deps : List (String × DepConfig)) (hkeys : (depKeys deps).Nodup) :
    KahnInv deps (indegInit deps)
      ((activeNames deps).filter (fun n => indegInit deps n = 0)) [] := by
  have hA : (activeNames deps).Nodup := hkeys.filter _
  have hfilter_nil : ∀ l : List String,
      l.filter (fun b => !(([] : List String).contains b)) = l := by
    intro l; simp
  constructor
  · rw [List.nil_append]
    exact hA.filter _
  · intro n hn
    rw [List.nil_append, List.mem_filter] at hn
    exact hn.1
  · intro n _
    rw [hfilter_nil]
    rfl
  · intro n hn b hb
    rw [List.mem_filter] at hn
    have hz : indegInit deps n = 0 := of_decide_eq_true hn.2
    unfold indegInit at hz
    have : (depsOf deps n).length = 0 := by exact_mod_cast hz
    rw [List.length_eq_zero.mp this] at hb
    cases hb
  · intro n hn
    cases hn
  · intro n hn hall
    refine Or.inr (List.mem_filter.mpr ⟨hn, decide_eq_true ?_⟩)
    have : depsOf deps n = [] :=
      List.eq_nil_iff_forall_not_mem.mpr (fun b hb => absurd (hall b hb) (List.not_mem_nil b))
    unfold indegInit
    rw [this]
    rfl

/-- The Kahn result computed inside `resolveBuildOrder` (the value of its
`result` variable when the while loop exits). -/
def kahnResult (deps : List (String × DepConfig)) : List String :=
  kahnRun (graphOf deps) (kahnFuel deps) (indegInit deps)
    ((activeNames deps).filter (fun n => indegInit deps n = 0)) []

/-- Definitional unfolding of `resolveBuildOrder` on a configuration with
a `deps` object. -/
theorem resolveBuildOrder_some (deps : List (String × DepConfig)) (v r : Option String) :
    resolveBuildOrder (some { version := v, deps := some deps, releasesRoot := r }) =
      if (skipViolations deps).isEmpty then
        if (kahnResult deps).length = (activeNames deps).length then
          Except.ok (kahnResult deps)
        else
          Except.error (ResolveError.circular
            (detectCycles deps
              ((activeNames deps).filter (fun n => !((kahnResult deps).contains n))))
            (circularMessage (detectCycles deps
              ((activeNames deps).filter (fun n => !((kahnResult deps).contains n))))))
      else
        Except.error (ResolveError.skipViolation (skipViolations deps)
          (skipViolationMessage (skipViolations deps))) := rfl

/-- Every non-empty list of keys has a member minimizing an arbitrary
natural-number measure. -/
theorem exists_min_on_list (f : String → Nat) :
    ∀ c : List String, c ≠ [] → ∃ m ∈ c, ∀ x ∈ c, f m ≤ f x := by
  intro c
  induction c with
  | nil => intro h; exact absurd rfl h
  | cons x rest ih =>
    intro _
    cases rest with
    | nil =>
      exact ⟨x, List.mem_cons_self x [], fun y hy => by
        rw [List.mem_singleton.mp hy]⟩
    | cons y t =>
      obtain ⟨m, hm, hmin⟩ := ih (List.cons_ne_nil y t)
      by_cases h : f x ≤ f m
      · refine ⟨x, List.mem_cons_self x (y :: t), ?_⟩
        intro z hz
        rcases List.mem_cons.mp hz with h' | h'
        · rw [h']
        · exact Nat.le_trans h (hmin z h')
      · refine ⟨m, List.mem_cons_of_mem x hm, ?_⟩
        intro z hz
        rcases List.mem_cons.mp hz with h' | h'
        · rw [h']; omega
        · exact hmin z h'

/-- In a closed `deps`-walk, every member has a successor inside the walk
reached along a `deps` edge. -/
theorem closed_walk_succ (deps : List (String × DepConfig)) {c : List String}
    (hc : ClosesViaDeps deps c) :
    ∀ m ∈ c, ∃ s, s ∈ c ∧ s ∈ depsOf deps m := by
  obtain ⟨hlen, hheadlast, hchain⟩ := hc
  intro m hm
  obtain ⟨i, hget⟩ := List.mem_iff_get.mp hm
  have hcl := List.chain'_iff_get.mp hchain
  by_cases hilt : i.1 < c.length - 1
  · refine ⟨c.get ⟨i.1 + 1, by omega⟩, List.get_mem c _ _, ?_⟩
    have := hcl i.1 hilt
    have hi_eta : c.get ⟨i.1, by omega⟩ = m := by
      rw [← hget]
    rw [hi_eta] at this
    exact this
  · have hne : c ≠ [] := by
      intro h
      rw [h] at hlen
      simp at hlen
    have hi_eq : i.1 = c.length - 1 := by
      have := i.2
      omega
    have hfirst_last : c.get ⟨0, by omega⟩ = c.get ⟨c.length - 1, by omega⟩ := by
      have h1 : c.head? = some (c.get ⟨0, by omega⟩) := by
        rw [List.head?_eq_getElem?, List.getElem?_eq_getElem (by omega), List.get_eq_getElem]
      have h2 : c.getLast? = some (c.get ⟨c.length - 1, by omega⟩) := by
        rw [List.getLast?_eq_getLast c hne, List.getLast_eq_get]
      rw [h1, h2] at hheadlast
      injection hheadlast
    have hm0 : c.get ⟨0, by omega⟩ = m := by
      rw [hfirst_last, ← hget]
      congr 1
      exact Fin.ext hi_eq.symm
    refine ⟨c.get ⟨1, by omega⟩, List.get_mem c _ _, ?_⟩
    have := hcl 0 (by omega)
    rw [hm0] at this
    exact this

/-- Pigeonhole construction: if every key satisfying `P` (all drawn from a
fixed finite list) has a `deps`-successor also satisfying `P`, then from
any starting key in `P` a closed `deps`-walk inside `P` can be
extracted. -/
theorem exists_closed_walk_of_succ (deps : List (String × DepConfig))
    (P : String → Prop) (l : List String)
    (hPl : ∀ x, P x → x ∈ l)
    (hsucc : ∀ x, P x → ∃ y, y ∈ depsOf deps x ∧ P y)
    (x0 : String) (hx0 : P x0) :
    ∃ c, ClosesViaDeps deps c ∧ ∀ x ∈ c, P x := by
  classical
  let f : {x // P x} → {x // P x} :=
    fun p => ⟨(hsucc p.1 p.2).choose, (hsucc p.1 p.2).choose_spec.2⟩
  let g : Nat → {x // P x} := fun n => f^[n] ⟨x0, hx0⟩
  have hgsucc : ∀ n : Nat, (g (n + 1)).1 ∈ depsOf deps (g n).1 := by
    intro n
    have hstep : g (n + 1) = f (g n) := Function.iterate_succ_apply' f n _
    rw [hstep]
    exact (hsucc (g n).1 (g n).2).choose_spec.1
  have key : ∀ a b : Nat, a < b → (g a).1 = (g b).1 →
      ∃ c, ClosesViaDeps deps c ∧ ∀ x ∈ c, P x := by
    intro a b hab hval
    refine ⟨(List.range (b - a + 1)).map (fun k => (g (a + k)).1), ⟨?_, ?_, ?_⟩, ?_⟩
    · rw [List.length_map, List.length_range]
      omega
    · rw [List.head?_map, List.getLast?_map]
      have hhead : (List.range (b - a + 1)).head? = some 0 := by
        rw [List.range_succ_eq_map]
        rfl
      have hlast : (List.range (b - a + 1)).getLast? = some (b - a) := by
        rw [List.range_succ, List.getLast?_concat]
      rw [hhead, hlast]
      have : a + (b - a) = b := by omega
      rw [Option.map_some', Option.map_some', Nat.add_zero, this, hval]
    · rw [List.chain'_map, List.chain'_range_succ]
      intro m hm
      have := hgsucc (a + m)
      have harr : a + (m + 1) = (a + m) + 1 := by omega
      rw [harr]
      exact this
    · intro x hx
      rw [List.mem_map] at hx
      obtain ⟨k, _, rfl⟩ := hx
      exact (g (a + k)).2
  have hmaps : ∀ i : Fin (l.length + 1), i ∈ (Finset.univ : Finset (Fin (l.length + 1))) →
      (g i.1).1 ∈ l.toFinset :=
    fun i _ => List.mem_toFinset.mpr (hPl _ (g i.1).2)
  have hcard : l.toFinset.card < (Finset.univ : Finset (Fin (l.length + 1))).card := by
    rw [Finset.card_univ, Fintype.card_fin]
    exact Nat.lt_succ_of_le (List.toFinset_card_le l)
  obtain ⟨i, _, j, _, hij, heq⟩ :=
    Finset.exists_ne_map_eq_of_card_lt_of_maps_to hcard hmaps
  rcases Nat.lt_trichotomy i.1 j.1 with h | h | h
  · exact key i.1 j.1 h heq
  · exact absurd (Fin.ext h) hij
  · exact key j.1 i.1 h heq.symm

/-- Active keys are never in the skipped list. -/
theorem active_not_skipped (deps : List (String × DepConfig)) {b : String}
    (hb : b ∈ activeNames deps) : b ∉ skippedNames deps := by
  intro hbs
  unfold activeNames at hb
  unfold skippedNames at hbs
  have h1 := (List.mem_filter.mp hb).2
  have h2 := (List.mem_filter.mp hbs).2
  rw [h2] at h1
  exact Bool.false_ne_true h1

/-- When every active key's `deps` stay inside the active keys, the
skip-violation check of `resolveBuildOrder` passes. -/
theorem skipViolations_eq_nil (deps : List (String × DepConfig))
    (hrefs : ∀ a ∈ activeNames deps, ∀ b ∈ depsOf deps a, b ∈ activeNames deps) :
    skipViolations deps = [] := by
  unfold skipViolations
  rw [List.filterMap_eq_nil]
  intro a ha
  have hfil : (depsOf deps a).filter (fun d => (skippedNames deps).contains d) = [] := by
    rw [List.filter_eq_nil]
    intro b hb
    have hbact := hrefs a ha b hb
    rw [contains_eq_decide, decide_eq_false (active_not_skipped deps hbact)]
    exact Bool.false_ne_true
  simp only [hfil]
  rfl

/-- A measure strictly decreasing along `deps` edges between active keys
rules out closed `deps`-walks among the active keys. -/
theorem acyclic_of_measure (deps : List (String × DepConfig)) (f : String → Nat)
    (h : ∀ a ∈ activeNames deps, ∀ b ∈ depsOf deps a, f b < f a) :
    ¬ ∃ c, ClosesViaDeps deps c ∧ ∀ x ∈ c, x ∈ activeNames deps := by
  rintro ⟨c, hc, hmem⟩
  have hne : c ≠ [] := by
    obtain ⟨hl, _, _⟩ := hc
    intro e
    rw [e] at hl
    simp at hl
  obtain ⟨m, hm, hmin⟩ := exists_min_on_list f c hne
  obtain ⟨s, hs, hse⟩ := closed_walk_succ deps hc m hm
  exact absurd (hmin s hs) (Nat.not_le.mpr (h m (hmem m hm) s hse))

/-- C1: for a configuration with duplicate-free keys whose active
dependencies reference only active keys and whose active dependency graph
has no closed `deps`-walk, `resolveBuildOrder` succeeds with a permutation
of the active keys in which every declared dependency appears strictly
before its dependent. -/
theorem resolveBuildOrder_topological (deps : List (String × DepConfig))
    (v r : Option String)
    (hkeys : (depKeys deps).Nodup)
    (hrefs : ∀ a ∈ activeNames deps, ∀ b ∈ depsOf deps a, b ∈ activeNames deps)
    (hacyc : ¬ ∃ c, ClosesViaDeps deps c ∧ ∀ x ∈ c, x ∈ activeNames deps) :
    ∃ order, resolveBuildOrder
        (some { version := v, deps := some deps, releasesRoot := r }) =
        Except.ok order ∧
      order.Perm (activeNames deps) ∧
      ∀ a ∈ activeNames deps, ∀ b ∈ depsOf deps a,
        List.indexOf b order < List.indexOf a order := by
  classical
  have hA : (activeNames deps).Nodup := hkeys.filter _
  have hnoviol := skipViolations_eq_nil deps hrefs
  obtain ⟨indeg', invF⟩ := kahnRun_spec deps hkeys (kahnFuel deps) (indegInit deps)
    ((activeNames deps).filter (fun n => indegInit deps n = 0)) []
    (kahnInv_init deps hkeys)
    (by unfold kahnFuel; omega)
  have hout : kahnResult deps =
      kahnRun (graphOf deps) (kahnFuel deps) (indegInit deps)
        ((activeNames deps).filter (fun n => indegInit deps n = 0)) [] := rfl
  rw [← hout] at invF
  have hout_nd : (kahnResult deps).Nodup := by
    have := invF.nodup
    rw [List.append_nil] at this
    exact this
  have hout_sub : ∀ n ∈ kahnResult deps, n ∈ activeNames deps := by
    intro n hn
    exact invF.subset n (by rw [List.append_nil]; exact hn)
  have hcompl : ∀ n ∈ activeNames deps, n ∈ kahnResult deps := by
    by_contra hcon
    push_neg at hcon
    obtain ⟨n0, hn0A, hn0out⟩ := hcon
    have hwalk := exists_closed_walk_of_succ deps
      (fun x => x ∈ activeNames deps ∧ x ∉ kahnResult deps) (activeNames deps)
      (fun x hx => hx.1)
      (by
        intro x hx
        have hnotall : ¬ ∀ b ∈ depsOf deps x, b ∈ kahnResult deps := by
          intro hall
          rcases invF.complete x hx.1 hall with h | h
          · exact hx.2 h
          · cases h
        push_neg at hnotall
        obtain ⟨b, hb, hbout⟩ := hnotall
        exact ⟨b, hb, hrefs x hx.1 b hb, hbout⟩)
      n0 ⟨hn0A, hn0out⟩
    obtain ⟨c, hc, hcm⟩ := hwalk
    exact hacyc ⟨c, hc, fun x hx => (hcm x hx).1⟩
  have hperm : (kahnResult deps).Perm (activeNames deps) :=
    (List.Nodup.subperm hout_nd hout_sub).antisymm
      (List.Nodup.subperm hA hcompl)
  refine ⟨kahnResult deps, ?_, hperm, ?_⟩
  · rw [resolveBuildOrder_some, if_pos (by rw [hnoviol]; rfl),
      if_pos hperm.length_eq]
  · intro a ha b hb
    exact (invF.result_ord a (hcompl a ha) b hb).2

/-- Concrete instance for C1: the two-entry configuration in which `b`
depends on `a` resolves to an order placing `a` before `b`. -/
theorem resolveBuildOrder_topological_witness :
    ∃ order, resolveBuildOrder
        (some { version := some "1.0.0",
                deps := some [("a", { deps := some ([] : List String) }),
                              ("b", { deps := some ["a"] })],
                releasesRoot := none }) =
        Except.ok order ∧
      order.Perm (activeNames [("a", { deps := some ([] : List String) }),
                               ("b", { deps := some ["a"] })]) ∧
      ∀ a ∈ activeNames [("a", { deps := some ([] : List String) }),
                         ("b", { deps := some ["a"] })],
        ∀ b ∈ depsOf [("a", { deps := some ([] : List String) }),
                      ("b", { deps := some ["a"] })] a,
          List.indexOf b order < List.indexOf a order :=
  resolveBuildOrder_topological
    [("a", { deps := some ([] : List String) }), ("b", { deps := some ["a"] })]
    (some "1.0.0") none
    (by decide)
    (by decide)
    (acyclic_of_measure _ (fun s => if s = "b" then 1 else 0) (by decide))

/-- C2: for a configuration with duplicate-free keys, (a) any closed
`deps`-walk among the active keys makes `resolveBuildOrder` throw instead
of returning an order, and (b) every cycle reported in the circular error,
traversed along each listed node's `deps` edges, returns to its own
starting node. -/
theorem resolveBuildOrder_cycle_detection (deps : List (String × DepConfig))
    (v r : Option String) (hkeys : (depKeys deps).Nodup) :
    ((∃ c, ClosesViaDeps deps c ∧ ∀ x ∈ c, x ∈ activeNames deps) →
      ∃ e, resolveBuildOrder
        (some { version := v, deps := some deps, releasesRoot := r }) =
        Except.error e) ∧
    (∀ cycles msg,
      resolveBuildOrder (some { version := v, deps := some deps, releasesRoot := r }) =
        Except.error (ResolveError.circular cycles msg) →
      ∀ c ∈ cycles, ClosesViaDeps deps c) := by
  classical
  have hA : (activeNames deps).Nodup := hkeys.filter _
  constructor
  · rintro ⟨c, hc, hcm⟩
    by_cases hv : (skipViolations deps).isEmpty
    · obtain ⟨indeg', invF⟩ := kahnRun_spec deps hkeys (kahnFuel deps) (indegInit deps)
        ((activeNames deps).filter (fun n => indegInit deps n = 0)) []
        (kahnInv_init deps hkeys)
        (by unfold kahnFuel; omega)
      have hout : kahnResult deps =
          kahnRun (graphOf deps) (kahnFuel deps) (indegInit deps)
            ((activeNames deps).filter (fun n => indegInit deps n = 0)) [] := rfl
      rw [← hout] at invF
      have hne : c ≠ [] := by
        obtain ⟨hl, _, _⟩ := hc
        intro e
        rw [e] at hl
        simp at hl
      have hmiss : ∃ m ∈ c, m ∉ kahnResult deps := by
        by_contra hall
        push_neg at hall
        obtain ⟨m, hm, hmin⟩ :=
          exists_min_on_list (fun x => List.indexOf x (kahnResult deps)) c hne
        obtain ⟨s, hs, hse⟩ := closed_walk_succ deps hc m hm
        obtain ⟨_, hlt⟩ := invF.result_ord m (hall m hm) s hse
        have := hmin s hs
        omega
      obtain ⟨m, hm, hmout⟩ := hmiss
      have hmA : m ∈ activeNames deps := hcm m hm
      have hout_nd : (kahnResult deps).Nodup := by
        have := invF.nodup
        rw [List.append_nil] at this
        exact this
      have hout_sub : ∀ n ∈ kahnResult deps, n ∈ activeNames deps := by
        intro n hn
        exact invF.subset n (by rw [List.append_nil]; exact hn)
      have hlen_lt : (kahnResult deps).length < (activeNames deps).length := by
        have hss : (kahnResult deps).toFinset ⊂ (activeNames deps).toFinset := by
          rw [Finset.ssubset_iff_of_subset
            (fun x hx => List.mem_toFinset.mpr (hout_sub x (List.mem_toFinset.mp hx)))]
          exact ⟨m, List.mem_toFinset.mpr hmA, fun hx => hmout (List.mem_toFinset.mp hx)⟩
        have h1 := Finset.card_lt_card hss
        rw [List.toFinset_card_of_nodup hout_nd] at h1
        have h2 := List.toFinset_card_le (activeNames deps)
        omega
      refine ⟨ResolveError.circular
        (detectCycles deps
          ((activeNames deps).filter (fun n => !((kahnResult deps).contains n))))
        (circularMessage (detectCycles deps
          ((activeNames deps).filter (fun n => !((kahnResult deps).contains n))))), ?_⟩
      rw [resolveBuildOrder_some, if_pos hv, if_neg (by omega)]
    · refine ⟨ResolveError.skipViolation (skipViolations deps)
        (skipViolationMessage (skipViolations deps)), ?_⟩
      rw [resolveBuildOrder_some, if_neg hv]
  · intro cycles msg heq
    rw [resolveBuildOrder_some] at heq
    by_cases hv : (skipViolations deps).isEmpty
    · rw [if_pos hv] at heq
      by_cases hlen : (kahnResult deps).length = (activeNames deps).length
      · rw [if_pos hlen] at heq
        cases heq
      · rw [if_neg hlen] at heq
        have hcyc_eq : cycles = detectCycles deps
            ((activeNames deps).filter (fun n => !((kahnResult deps).contains n))) := by
          injection heq with h1
          injection h1 with h2 _
          exact h2.symm
        rw [hcyc_eq]
        exact detectCycles_closed deps _
    · rw [if_neg hv] at heq
      exfalso
      injection heq with h1
      exact ResolveError.noConfusion h1

/-- Concrete instance for C2: the two-entry configuration `a ↔ b` makes
`resolveBuildOrder` throw. -/
theorem resolveBuildOrder_cycle_detection_witness :
    ∃ e, resolveBuildOrder
        (some { version := some "1.0.0",
                deps := some [("a", { deps := some ["b"] }),
                              ("b", { deps := some ["a"] })],
                releasesRoot := none }) = Except.error e :=
  (resolveBuildOrder_cycle_detection
    [("a", { deps := some ["b"] }), ("b", { deps := some ["a"] })]
    (some "1.0.0") none (by decide)).1
    ⟨["a", "b", "a"],
      ⟨by decide, by decide,
        List.chain'_cons.mpr ⟨by decide, List.chain'_pair.mpr (by decide)⟩⟩,
      by decide⟩

/-- Each violating active key appears in `skipViolations` paired with
exactly its skipped dependencies. -/
theorem mem_skipViolations (deps : List (String × DepConfig)) (a : String)
    (ha : a ∈ activeNames deps)
    (hne : (depsOf deps a).filter (fun d => (skippedNames deps).contains d) ≠ []) :
    (a, (depsOf deps a).filter (fun d => (skippedNames deps).contains d)) ∈
      skipViolations deps := by
  unfold skipViolations
  rw [List.mem_filterMap]
  refine ⟨a, ha, ?_⟩
  have hfalse :
      ¬(((depsOf deps a).filter (fun d => (skippedNames deps).contains d)).isEmpty = true) := by
    rw [List.isEmpty_iff]
    exact hne
  rw [if_neg hfalse]

/-- C3: when some active dependency lists a skipped dependency, the
resolver throws the dedicated configuration error (the skip-violation
error, raised by the validation pass that precedes all graph construction
and sorting), and the error's violation list names every violating pair
(each violating dependent together with all of its skipped
dependencies). -/
theorem resolveBuildOrder_skip_violation (deps : List (String × DepConfig))
    (v r : Option String)
    (hviol : ∃ a ∈ activeNames deps,
      (depsOf deps a).filter (fun d => (skippedNames deps).contains d) ≠ []) :
    ∃ V msg,
      resolveBuildOrder (some { version := v, deps := some deps, releasesRoot := r }) =
        Except.error (ResolveError.skipViolation V msg) ∧
      ∀ a ∈ activeNames deps,
        (depsOf deps a).filter (fun d => (skippedNames deps).contains d) ≠ [] →
        (a, (depsOf deps a).filter (fun d => (skippedNames deps).contains d)) ∈ V := by
  obtain ⟨a0, ha0, hne0⟩ := hviol
  have hmem := mem_skipViolations deps a0 ha0 hne0
  have hnonempty : skipViolations deps ≠ [] := List.ne_nil_of_mem hmem
  have hnot : ¬((skipViolations deps).isEmpty = true) := by
    rw [List.isEmpty_iff]
    exact hnonempty
  refine ⟨skipViolations deps, skipViolationMessage (skipViolations deps), ?_, ?_⟩
  · rw [resolveBuildOrder_some, if_neg hnot]
  · intro a ha hne
    exact mem_skipViolations deps a ha hne

/-- Concrete instance for C3: active `y` depending on skipped `x` makes the
resolver throw the skip-violation error naming the pair. -/
theorem resolveBuildOrder_skip_violation_witness :
    ∃ V msg,
      resolveBuildOrder
        (some { version := some "1.0.0",
                deps := some [("x", { skip := true }),
                              ("y", { deps := some ["x"] })],
                releasesRoot := none }) =
        Except.error (ResolveError.skipViolation V msg) ∧
      ∀ a ∈ activeNames [("x", { skip := true }), ("y", { deps := some ["x"] })],
        (depsOf [("x", { skip := true }), ("y", { deps := some ["x"] })] a).filter
            (fun d => (skippedNames [("x", { skip := true }),
              ("y", { deps := some ["x"] })]).contains d) ≠ [] →
        (a, (depsOf [("x", { skip := true }), ("y", { deps := some ["x"] })] a).filter
            (fun d => (skippedNames [("x", { skip := true }),
              ("y", { deps := some ["x"] })]).contains d)) ∈ V :=
  resolveBuildOrder_skip_violation
    [("x", { skip := true }), ("y", { deps := some ["x"] })]
    (some "1.0.0") none
    ⟨"y", by decide, by decide⟩

/-! ### Configuration validation (`src/scripts/utils/config-validator.js`) -/

/-- The validation errors collected for one dependency entry by
`validateBuildConfig` (lines 33-82), in source order: required fields
(`name`, `git.url`, boolean-typed `git.shallow` / `git.initSubmodules`),
the version/branch requirement, then unknown `deps` references.  A field
holding a non-object / non-boolean JS value is modelled as absent. -/
def validateDepErrors (deps : List (String × DepConfig)) (depKey : String)
    (dep : DepConfig) : List String :=
  let pre := "deps[\"" ++ depKey ++ "\"]"
  (if !(jsTruthyStr dep.name) then [pre ++ " is missing required field: name"] else []) ++
  (match dep.git with
   | none => [pre ++ " is missing required field: git (must be an object)"]
   | some g =>
     (if !(jsTruthyStr g.url) then [pre ++ ".git is missing required field: url"] else []) ++
     (if g.shallow = none then [pre ++ ".git.shallow must be a boolean"] else []) ++
     (if g.initSubmodules = none then
       [pre ++ ".git.initSubmodules must be a boolean"] else [])) ++
  (if dep.defaultVersion = none ∧ dep.branch = none then
     [pre ++ " must have either defaultVersion or branch specified. " ++
       "If defaultVersion is null, branch is required."]
   else []) ++
  (match dep.deps with
   | none => []
   | some ds => ds.filterMap (fun depRef =>
       if lookupDep deps depRef = none then
         some (pre ++ ".deps references unknown dependency \"" ++ depRef ++ "\". " ++
           "Available dependencies: " ++ String.intercalate ", " (depKeys deps))
       else none))

/-- `validateBuildConfig(config)` (lines 17-91): early throws for a missing
config, `version` or `deps`; then one aggregated error listing every
per-dependency violation, or success. -/
def validateBuildConfig (config : Option BuildConfig) : Except String Unit :=
  match config with
  | none => Except.error "Build configuration is null or undefined"
  | some cfg =>
    if !(jsTruthyStr cfg.version) then
      Except.error "Build configuration must have a version field"
    else
      match cfg.deps with
      | none => Except.error "Build configuration must have a deps object"
      | some deps =>
        let errors := (depKeys deps).flatMap (fun k =>
          match lookupDep deps k with
          | some dep => validateDepErrors deps k dep
          | none => [])
        if errors.length > 0 then
          Except.error ("Build configuration validation failed:\n  " ++
            String.intercalate "\n  " errors)
        else Except.ok ()

/-- `getDependency(config, depName)` (config-validator.js lines 113-118). -/
def getDependency (config : Option BuildConfig) (depName : String) : Option DepConfig :=
  match config with
  | none => none
  | some cfg =>
    match cfg.deps with
    | none => none
    | some deps => lookupDep deps depName

/-- With duplicate-free keys, association-list membership determines the
lookup. -/
theorem lookupDep_eq_of_mem (deps : List (String × DepConfig)) (k : String) (d : DepConfig)
    (hnd : (depKeys deps).Nodup) (hmem : (k, d) ∈ deps) :
    lookupDep deps k = some d := by
  induction deps with
  | nil => cases hmem
  | cons p rest ih =>
    obtain ⟨k', d'⟩ := p
    rw [lookupDep]
    have hnd' := hnd
    rw [depKeys, List.map_cons, List.nodup_cons] at hnd'
    by_cases h : k' = k
    · subst h
      rcases List.mem_cons.mp hmem with h' | h'
      · rw [if_pos rfl]
        injection h' with h1 h2
        rw [h2]
      · exfalso
        exact hnd'.1 (List.mem_map.mpr ⟨(k', d), h', rfl⟩)
    · rw [if_neg h]
      rcases List.mem_cons.mp hmem with h' | h'
      · injection h' with h1 _
        exact absurd h1.symm h
      · exact ih hnd'.2 h'

/-- C6 counterexample: a fully valid entry carrying BOTH a non-null
`defaultVersion` and a non-null `branch` passes `validateBuildConfig` — the
validator does not reject the both-non-null case. -/
theorem validateBuildConfig_both_non_null_accepted :
    validateBuildConfig
      (some { version := some "1.0.0",
              deps := some [("dawn",
                { name := some "dawn",
                  git := some { url := some "https://example.com/dawn.git",
                                shallow := some true, initSubmodules := some false },
                  defaultVersion := some "1.2.3",
                  branch := some "main" })],
              releasesRoot := none }) = Except.ok () := by rfl

/-- C6 (amended): `validateBuildConfig` fails whenever some dependency
entry has both `defaultVersion` and `branch` null; it does not require the
two to be mutually exclusive. -/
theorem validateBuildConfig_both_null_rejected
    (deps : List (String × DepConfig)) (k : String) (d : DepConfig)
    (v r : Option String)
    (hnd : (depKeys deps).Nodup)
    (hmem : (k, d) ∈ deps)
    (hdv : d.defaultVersion = none) (hbr : d.branch = none) :
    ∃ msg, validateBuildConfig
      (some { version := v, deps := some deps, releasesRoot := r }) =
      Except.error msg := by
  have hstep : validateBuildConfig
      (some { version := v, deps := some deps, releasesRoot := r }) =
      (if !(jsTruthyStr v) then
        Except.error "Build configuration must have a version field"
      else
        if ((depKeys deps).flatMap (fun k =>
            match lookupDep deps k with
            | some dep => validateDepErrors deps k dep
            | none => [])).length > 0 then
          Except.error ("Build configuration validation failed:\n  " ++
            String.intercalate "\n  " ((depKeys deps).flatMap (fun k =>
              match lookupDep deps k with
              | some dep => validateDepErrors deps k dep
              | none => [])))
        else Except.ok ()) := rfl
  rw [hstep]
  by_cases hver : jsTruthyStr v
  · rw [hver]
    simp only [Bool.not_true]
    rw [if_neg (fun h => Bool.false_ne_true h)]
    have hkmem : k ∈ depKeys deps := List.mem_map.mpr ⟨(k, d), hmem, rfl⟩
    have hlook := lookupDep_eq_of_mem deps k d hnd hmem
    have hdmsg : ("deps[\"" ++ k ++ "\"]" ++
        " must have either defaultVersion or branch specified. " ++
        "If defaultVersion is null, branch is required.") ∈ validateDepErrors deps k d := by
      unfold validateDepErrors
      refine List.mem_append.mpr (Or.inl (List.mem_append.mpr (Or.inr ?_)))
      rw [if_pos ⟨hdv, hbr⟩]
      exact List.mem_singleton.mpr rfl
    have herrmem : ("deps[\"" ++ k ++ "\"]" ++
        " must have either defaultVersion or branch specified. " ++
        "If defaultVersion is null, branch is required.") ∈
        (depKeys deps).flatMap (fun k =>
          match lookupDep deps k with
          | some dep => validateDepErrors deps k dep
          | none => []) := by
      rw [List.mem_flatMap]
      refine ⟨k, hkmem, ?_⟩
      rw [hlook]
      exact hdmsg
    have hpos : 0 < ((depKeys deps).flatMap (fun k =>
        match lookupDep deps k with
        | some dep => validateDepErrors deps k dep
        | none => [])).length :=
      List.length_pos.mpr (List.ne_nil_of_mem herrmem)
    rw [if_pos hpos]
    exact ⟨_, rfl⟩
  · rw [Bool.not_eq_true] at hver
    rw [hver]
    exact ⟨_, by rw [Bool.not_false, if_pos rfl]⟩

/-- Concrete instance for the amended C6: an entry with both fields null is
rejected. -/
theorem validateBuildConfig_both_null_rejected_witness :
    ∃ msg, validateBuildConfig
      (some { version := some "1.0.0",
              deps := some [("dawn",
                { name := some "dawn",
                  git := some { url := some "https://example.com/dawn.git",
                                shallow := some true, initSubmodules := some false },
                  defaultVersion := none,
                  branch := none })],
              releasesRoot := none }) = Except.error msg :=
  validateBuildConfig_both_null_rejected
    [("dawn",
      { name := some "dawn",
        git := some { url := some "https://example.com/dawn.git",
                      shallow := some true, initSubmodules := some false },
        defaultVersion := none,
        branch := none })]
    "dawn"
    { name := some "dawn",
      git := some { url := some "https://example.com/dawn.git",
                    shallow := some true, initSubmodules := some false },
      defaultVersion := none,
      branch := none }
    (some "1.0.0") none
    (by decide) (by decide) rfl rfl

/-! ### Git operations (`src/scripts/utils/git-operations.js`) -/

/-- The uniform result shape of the command runner (`runCommand`):
`{ok, stdout, stderr}`.  Absent capture streams are `none`. -/
structure ExecResult where
  ok : Bool
  stdout : Option String := none
  stderr : Option String := none
  deriving Repr, DecidableEq

/-- `ensureDirectory(targetPath)` (`src/scripts/utils/file-system.js`)
against an abstract filesystem `fs : path → exists?`: throws on an empty
path, creates the directory when missing (ancestors created by
`recursive: true` are not tracked separately because no modelled caller
queries them), and returns the possibly updated filesystem. -/
def ensureDirectory (fs : String → Bool) (targetPath : String) :
    Except String (String → Bool) :=
  if targetPath.isEmpty then
    Except.error "ensureDirectory requires a path argument"
  else if fs targetPath then Except.ok fs
  else Except.ok (fun p => if p = targetPath then true else fs p)

/-- The result object of `cloneGitRepository`. -/
structure CloneResult where
  ok : Bool
  skipped : Bool
  reason : Option String := none
  path : Option String := none
  stdout : Option String := none
  stderr : Option String := none
  deriving Repr, DecidableEq

/-- `cloneGitRepository(options)` (git-operations.js lines 20-57).  The
filesystem, the `path.dirname` function of the external path library, and
the command runner are oracle parameters; the returned list collects the
`git` invocations performed (their argument vectors), making "no clone
happened" observable. -/
def cloneGitRepository (fs : String → Bool) (dirname : String → String)
    (runner : List String → ExecResult) (repoUrl destination : String)
    (shallow : Bool) (extraArgs : List String) :
    Except String ((String → Bool) × List (List String) × CloneResult) :=
  if repoUrl.isEmpty then
    Except.error "cloneGitRepository requires a repoUrl"
  else if destination.isEmpty then
    Except.error "cloneGitRepository requires a destination path"
  else
    match ensureDirectory fs (dirname destination) with
    | Except.error e => Except.error e
    | Except.ok fs1 =>
      if fs1 destination then
        Except.ok (fs1, [],
          { ok := true, skipped := true, reason := some "already cloned",
            path := some destination })
      else
        let args := if shallow then
            ["clone", "--depth", "1", repoUrl, destination] ++ extraArgs
          else ["clone", repoUrl, destination] ++ extraArgs
        let result := runner args
        Except.ok (fs1, [args],
          { ok := result.ok, skipped := false, path := some destination,
            stdout := result.stdout, stderr := result.stderr })

/-- C9: cloning into an existing destination performs no clone: for every
URL, flag combination, runner and (well-formed) filesystem in which the
destination and its parent exist, the call returns `ok:true, skipped:true`,
issues no git command, and leaves the filesystem exactly as it was. -/
theorem cloneGitRepository_idempotent (fs : String → Bool) (dirname : String → String)
    (runner : List String → ExecResult) (repoUrl destination : String)
    (shallow : Bool) (extraArgs : List String)
    (hurl : repoUrl.isEmpty = false) (hdest : destination.isEmpty = false)
    (hparent_ne : (dirname destination).isEmpty = false)
    (hexists : fs destination = true) (hparent : fs (dirname destination) = true) :
    cloneGitRepository fs dirname runner repoUrl destination shallow extraArgs =
      Except.ok (fs, [],
        { ok := true, skipped := true, reason := some "already cloned",
          path := some destination }) := by
  unfold cloneGitRepository
  rw [hurl, if_neg (fun h => Bool.false_ne_true h),
    hdest, if_neg (fun h => Bool.false_ne_true h)]
  have hensure : ensureDirectory fs (dirname destination) = Except.ok fs := by
    unfold ensureDirectory
    rw [hparent_ne, if_neg (fun h => Bool.false_ne_true h), if_pos hparent]
  simp only [hensure]
  rw [if_pos hexists]

/-- Concrete instance for C9. -/
theorem cloneGitRepository_idempotent_witness :
    cloneGitRepository (fun p => p = "/build/repo" || p = "/build")
      (fun _ => "/build") (fun _ => { ok := true })
      "https://example.com/r.git" "/build/repo" true ["--filter=tree:0"] =
      Except.ok ((fun p => p = "/build/repo" || p = "/build"), [],
        { ok := true, skipped := true, reason := some "already cloned",
          path := some "/build/repo" }) :=
  cloneGitRepository_idempotent (fun p => p = "/build/repo" || p = "/build")
    (fun _ => "/build") (fun _ => { ok := true })
    "https://example.com/r.git" "/build/repo" true ["--filter=tree:0"]
    rfl rfl rfl (by decide) (by decide)

/-- JS `String.prototype.trim`, modelled over the character list (strip
leading and trailing whitespace); written without `Substring` so that it
evaluates inside the kernel. -/
def jsTrim (s : String) : String :=
  String.mk (((s.data.dropWhile Char.isWhitespace).reverse.dropWhile
    Char.isWhitespace).reverse)

/-- `String.prototype.startsWith`, over the character lists. -/
def jsStartsWith (s pre : String) : Bool :=
  decide (s.data.take pre.data.length = pre.data)

/-- `String.prototype.slice(1)`: drop the first character. -/
def jsDropFirst (s : String) : String :=
  String.mk (s.data.drop 1)

/-- `collectOutput(execution)` (git-operations.js lines 252-261): the
trimmed, joined capture streams (a falsy — absent or empty — stream is
skipped, and empty trims are filtered out). -/
def collectOutput (execution : ExecResult) : String :=
  let parts :=
    (match execution.stdout with
     | some s => if s.isEmpty then [] else [jsTrim s]
     | none => []) ++
    (match execution.stderr with
     | some s => if s.isEmpty then [] else [jsTrim s]
     | none => [])
  String.intercalate "\n" (parts.filter (fun s => !s.isEmpty))

/-- `collectUniqueRefs(primary, fallback)` (lines 185-211): trimmed,
deduplicated, empty strings dropped, primary first. -/
def collectUniqueRefs (primary : Option String) (fallback : List String) : List String :=
  let enqueue := fun (refs : List String) (v : Option String) =>
    match v with
    | none => refs
    | some s =>
      let t := jsTrim s
      if t.isEmpty || refs.contains t then refs else refs ++ [t]
  (primary :: fallback.map some).foldl enqueue []

/-- One error entry of a failed checkout attempt. -/
structure RefError where
  ref : String
  type : String
  step : String
  output : String
  deriving Repr, DecidableEq

/-- The result object of `checkoutGitRef`. -/
structure CheckoutResult where
  ok : Bool
  skipped : Bool := false
  reason : Option String := none
  ref : Option String := none
  type : Option String := none
  errors : List RefError := []
  deriving Repr, DecidableEq

/-- Aggregate result of `attemptCheckoutVariants`. -/
structure AttemptResult where
  ok : Bool
  output : String
  deriving Repr, DecidableEq

/-- The inner loop of `attemptCheckoutVariants` (lines 221-245): try each
checkout variant in order (first success wins), accumulating failure
outputs; the issued git commands are returned alongside. -/
def attemptVariants (runner : List String → ExecResult) (repoPath : String)
    (isTag : Bool) : List String → List String → List (List String) × AttemptResult
  | [], outputs =>
    ([], { ok := false,
           output := String.intercalate "\n" (outputs.filter (fun s => !s.isEmpty)) })
  | variant :: rest, outputs =>
    let args := ["-C", repoPath, "checkout"] ++ (if isTag then ["--detach"] else []) ++
      [variant]
    let result := runner args
    if result.ok then ([args], { ok := true, output := collectOutput result })
    else
      let next := attemptVariants runner repoPath isTag rest (outputs ++ [collectOutput result])
      (args :: next.1, next.2)

/-- `attemptCheckoutVariants(runner, repoPath, ref, isTag)`: for a tag, try
`tags/<ref>` then the bare ref (both detached); for a branch, just the
ref. -/
def attemptCheckoutVariants (runner : List String → ExecResult) (repoPath ref : String)
    (isTag : Bool) : List (List String) × AttemptResult :=
  attemptVariants runner repoPath isTag
    (if isTag then ["tags/" ++ ref, ref] else [ref]) []

/-- The candidate loop of `checkoutGitRef` (lines 116-171).  For each
candidate ref in order: shallow tag fetch, then (on success) the tag
checkout variants — a success returns immediately with `type: "tag"`;
otherwise the failure is recorded and the same ref is retried as a branch
(shallow fetch + plain checkout), a success returning `type: "branch"`;
only then does the loop move to the next candidate.  The first component
accumulates the git commands issued. -/
def checkoutLoop (runner : List String → ExecResult) (repoPath : String) :
    List String → List RefError → List (List String) × CheckoutResult
  | [], errors => ([], { ok := false, errors := errors })
  | ref :: rest, errors =>
    let trimmedRef := jsTrim ref
    if trimmedRef.isEmpty then checkoutLoop runner repoPath rest errors
    else
      let tagFetchArgs := ["-C", repoPath, "fetch", "--depth", "1", "origin", "tag",
        trimmedRef]
      let tagFetch := runner tagFetchArgs
      let tagPart : List (List String) × Option CheckoutResult × List RefError :=
        if tagFetch.ok then
          let attempt := attemptCheckoutVariants runner repoPath trimmedRef true
          if attempt.2.ok then
            (tagFetchArgs :: attempt.1,
             some { ok := true, ref := some trimmedRef, type := some "tag" }, errors)
          else
            (tagFetchArgs :: attempt.1, none,
             errors ++ [{ ref := trimmedRef, type := "tag", step := "checkout",
                          output := attempt.2.output }])
        else
          ([tagFetchArgs], none,
           errors ++ [{ ref := trimmedRef, type := "tag", step := "fetch",
                        output := collectOutput tagFetch }])
      match tagPart with
      | (tr, some res, _) => (tr, res)
      | (tr, none, errors1) =>
        let branchFetchArgs := ["-C", repoPath, "fetch", "--depth", "1", "origin",
          trimmedRef]
        let branchFetch := runner branchFetchArgs
        if branchFetch.ok then
          let branchCheckoutArgs := ["-C", repoPath, "checkout", trimmedRef]
          let branchCheckout := runner branchCheckoutArgs
          if branchCheckout.ok then
            (tr ++ [branchFetchArgs, branchCheckoutArgs],
             { ok := true, ref := some trimmedRef, type := some "branch" })
          else
            let next := checkoutLoop runner repoPath rest
              (errors1 ++ [{ ref := trimmedRef, type := "branch", step := "checkout",
                             output := collectOutput branchCheckout }])
            (tr ++ [branchFetchArgs, branchCheckoutArgs] ++ next.1, next.2)
        else
          let next := checkoutLoop runner repoPath rest
            (errors1 ++ [{ ref := trimmedRef, type := "branch", step := "fetch",
                           output := collectOutput branchFetch }])
          (tr ++ [branchFetchArgs] ++ next.1, next.2)

/-- `checkoutGitRef(options)` (lines 96-177): throws on a missing repo
path, returns `skipped` when no candidate refs remain after cleaning, and
otherwise runs the candidate loop. -/
def checkoutGitRef (runner : List String → ExecResult) (repoPath : String)
    (primaryRef : Option String) (fallbackRefs : List String) :
    Except String (List (List String) × CheckoutResult) :=
  if repoPath.isEmpty then
    Except.error "checkoutGitRef requires a repository path"
  else
    let candidates := collectUniqueRefs primaryRef fallbackRefs
    if candidates.isEmpty then
      Except.ok ([], { ok := true, skipped := true, reason := some "no reference provided" })
    else
      Except.ok (checkoutLoop runner repoPath candidates [])

/-- The checkout-target selection of `prepareRepository`
(`src/build/scripts/utils/repo-manager.js` lines 92-141): prefer
`defaultVersion` (treated as a tag, with the `v`-prefix toggle as fallback
ref), else `branch` (no fallback), else throw; then call
`checkoutGitRef`. -/
def prepareCheckout (runner : List String → ExecResult)
    (defaultVersion branch : Option String) (depName repoRoot : String) :
    Except String (List (List String) × CheckoutResult) :=
  match defaultVersion with
  | some ver =>
    let trimmedRef := jsTrim ver
    let fallbackRefs :=
      if trimmedRef.isEmpty then []
      else [if jsStartsWith trimmedRef "v" then jsDropFirst trimmedRef
            else "v" ++ trimmedRef]
    checkoutGitRef runner repoRoot (some trimmedRef) fallbackRefs
  | none =>
    match branch with
    | some br =>
      let trimmedRef := jsTrim br
      checkoutGitRef runner repoRoot (some trimmedRef) []
    | none =>
      Except.error (depName ++ ": either defaultVersion or branch must be specified in config")

/-- C5 counterexample: with `defaultVersion = "1.2.3"`, when the tag fetch
of `1.2.3` fails but `1.2.3` works as a branch, checkout succeeds via
branch semantics for `1.2.3` WITHOUT ever attempting `v1.2.3`: the branch
fallback for a candidate runs before the next candidate's tag attempt, so
the claimed order (tag `1.2.3`, then tag `v1.2.3`, then branch semantics)
does not hold. -/
theorem prepareCheckout_v_fallback_counterexample :
    prepareCheckout
      (fun args =>
        if args = ["-C", "repo", "fetch", "--depth", "1", "origin", "1.2.3"] then
          { ok := true }
        else if args = ["-C", "repo", "checkout", "1.2.3"] then { ok := true }
        else { ok := false })
      (some "1.2.3") (some "main") "dawn" "repo" =
      Except.ok ([["-C", "repo", "fetch", "--depth", "1", "origin", "tag", "1.2.3"],
                  ["-C", "repo", "fetch", "--depth", "1", "origin", "1.2.3"],
                  ["-C", "repo", "checkout", "1.2.3"]],
        { ok := true, ref := some "1.2.3", type := some "branch",
          errors := [] }) ∧
    ∀ args ∈ [["-C", "repo", "fetch", "--depth", "1", "origin", "tag", "1.2.3"],
              ["-C", "repo", "fetch", "--depth", "1", "origin", "1.2.3"],
              ["-C", "repo", "checkout", "1.2.3"]],
      "v1.2.3" ∉ args := by
  constructor
  · rfl
  · decide

/-- The empty-candidate base case of the checkout loop. -/
theorem checkoutLoop_nil (runner : List String → ExecResult) (rp : String)
    (errors : List RefError) :
    checkoutLoop runner rp [] errors = ([], { ok := false, errors := errors }) := by
  rw [checkoutLoop]

/-- One candidate of the checkout loop when every git command fails: the
tag fetch of the candidate is attempted first, then the branch fetch of
the SAME candidate, and only then does the loop move on, having recorded
the two failures in order. -/
theorem checkoutLoop_all_fail_cons (runner : List String → ExecResult) (rp : String)
    (hfail : ∀ args, (runner args).ok = false) (ref : String) (rest : List String)
    (errors : List RefError) (href : (jsTrim ref).isEmpty = false) :
    checkoutLoop runner rp (ref :: rest) errors =
      (["-C", rp, "fetch", "--depth", "1", "origin", "tag", jsTrim ref] ::
        ["-C", rp, "fetch", "--depth", "1", "origin", jsTrim ref] ::
        (checkoutLoop runner rp rest (errors ++
          [{ ref := jsTrim ref, type := "tag", step := "fetch",
             output := collectOutput
               (runner ["-C", rp, "fetch", "--depth", "1", "origin", "tag", jsTrim ref]) },
           { ref := jsTrim ref, type := "branch", step := "fetch",
             output := collectOutput
               (runner ["-C", rp, "fetch", "--depth", "1", "origin", jsTrim ref]) }])).1,
       (checkoutLoop runner rp rest (errors ++
          [{ ref := jsTrim ref, type := "tag", step := "fetch",
             output := collectOutput
               (runner ["-C", rp, "fetch", "--depth", "1", "origin", "tag", jsTrim ref]) },
           { ref := jsTrim ref, type := "branch", step := "fetch",
             output := collectOutput
               (runner ["-C", rp, "fetch", "--depth", "1", "origin", jsTrim ref]) }])).2) := by
  simp only [checkoutLoop, href, hfail]
  simp [List.append_assoc]

/-- C5 (amended): with `defaultVersion = "1.2.3"` (and any branch
setting), checkout tries the candidates in order `1.2.3` then `v1.2.3`,
and for EACH candidate attempts tag semantics first and then branch
semantics for that same candidate before moving to the next; so when every
git command fails, the attempt sequence is exactly tag `1.2.3`, branch
`1.2.3`, tag `v1.2.3`, branch `v1.2.3`. -/
theorem prepareCheckout_order_amended (runner : List String → ExecResult)
    (branch : Option String) (depName rp : String)
    (hrp : rp.isEmpty = false)
    (hfail : ∀ args, (runner args).ok = false) :
    prepareCheckout runner (some "1.2.3") branch depName rp =
      Except.ok
        ([["-C", rp, "fetch", "--depth", "1", "origin", "tag", "1.2.3"],
          ["-C", rp, "fetch", "--depth", "1", "origin", "1.2.3"],
          ["-C", rp, "fetch", "--depth", "1", "origin", "tag", "v1.2.3"],
          ["-C", rp, "fetch", "--depth", "1", "origin", "v1.2.3"]],
         { ok := false, errors :=
            [{ ref := "1.2.3", type := "tag", step := "fetch",
               output := collectOutput
                 (runner ["-C", rp, "fetch", "--depth", "1", "origin", "tag", "1.2.3"]) },
             { ref := "1.2.3", type := "branch", step := "fetch",
               output := collectOutput
                 (runner ["-C", rp, "fetch", "--depth", "1", "origin", "1.2.3"]) },
             { ref := "v1.2.3", type := "tag", step := "fetch",
               output := collectOutput
                 (runner ["-C", rp, "fetch", "--depth", "1", "origin", "tag", "v1.2.3"]) },
             { ref := "v1.2.3", type := "branch", step := "fetch",
               output := collectOutput
                 (runner ["-C", rp, "fetch", "--depth", "1", "origin", "v1.2.3"]) }] }) := by
  have h1 : prepareCheckout runner (some "1.2.3") branch depName rp =
      checkoutGitRef runner rp (some "1.2.3") ["v1.2.3"] := rfl
  have h2 : checkoutGitRef runner rp (some "1.2.3") ["v1.2.3"] =
      if rp.isEmpty then Except.error "checkoutGitRef requires a repository path"
      else Except.ok (checkoutLoop runner rp ["1.2.3", "v1.2.3"] []) := rfl
  rw [h1, h2, hrp, if_neg (fun h => Bool.false_ne_true h)]
  have htrim1 : jsTrim "1.2.3" = "1.2.3" := rfl
  have htrim2 : jsTrim "v1.2.3" = "v1.2.3" := rfl
  rw [checkoutLoop_all_fail_cons runner rp hfail "1.2.3" ["v1.2.3"] [] (by rw [htrim1]; rfl)]
  rw [checkoutLoop_all_fail_cons runner rp hfail "v1.2.3" [] _ (by rw [htrim2]; rfl)]
  rw [checkoutLoop_nil, htrim1, htrim2]
  rfl

/-- Concrete instance for the amended C5: with a runner failing every
command, the four attempts happen in the stated order. -/
theorem prepareCheckout_order_amended_witness :
    prepareCheckout (fun _ => { ok := false }) (some "1.2.3") (some "main") "dawn" "repo" =
      Except.ok
        ([["-C", "repo", "fetch", "--depth", "1", "origin", "tag", "1.2.3"],
          ["-C", "repo", "fetch", "--depth", "1", "origin", "1.2.3"],
          ["-C", "repo", "fetch", "--depth", "1", "origin", "tag", "v1.2.3"],
          ["-C", "repo", "fetch", "--depth", "1", "origin", "v1.2.3"]],
         { ok := false, errors :=
            [{ ref := "1.2.3", type := "tag", step := "fetch",
               output := collectOutput ((fun _ => { ok := false })
                 (["-C", "repo", "fetch", "--depth", "1", "origin", "tag", "1.2.3"] : List String)) },
             { ref := "1.2.3", type := "branch", step := "fetch",
               output := collectOutput ((fun _ => { ok := false })
                 (["-C", "repo", "fetch", "--depth", "1", "origin", "1.2.3"] : List String)) },
             { ref := "v1.2.3", type := "tag", step := "fetch",
               output := collectOutput ((fun _ => { ok := false })
                 (["-C", "repo", "fetch", "--depth", "1", "origin", "tag", "v1.2.3"] : List String)) },
             { ref := "v1.2.3", type := "branch", step := "fetch",
               output := collectOutput ((fun _ => { ok := false })
                 (["-C", "repo", "fetch", "--depth", "1", "origin", "v1.2.3"] : List String)) }] }) :=
  prepareCheckout_order_amended (fun _ => { ok := false }) (some "main") "dawn" "repo"
    rfl (fun _ => rfl)

/-! ### Build orchestration (`orchestrateBuild` in `src/scripts/utils/index.js`) -/

/-- The repository state returned by `prepareRepository` and consumed by
the orchestrator. -/
structure RepoState where
  repoRoot : String
  version : Option String := none
  branch : Option String := none
  skipped : Bool := false
  deriving Repr, DecidableEq

/-- The object a build worker's `build` function resolves with. -/
structure WorkerResult where
  ok : Bool := true
  name : Option String := none
  skipped : Option Bool := none
  version : Option String := none
  deriving Repr, DecidableEq

/-- One entry of the orchestrator's `results` array. -/
structure BuildResult where
  ok : Bool
  name : String
  skipped : Option Bool := none
  reason : Option String := none
  error : Option String := none
  version : Option String := none
  branch : Option String := none
  releaseDir : Option String := none
  releasedFiles : Option (List String) := none
  deriving Repr, DecidableEq

/-- The result of the `copyToReleases` collaborator. -/
structure ReleaseResult where
  ok : Bool
  releaseDir : Option String := none
  copiedFiles : List String := []
  deriving Repr, DecidableEq

/-- Oracle describing how the effectful collaborators behave for one
dependency during this run: repository preparation, the dynamic import of
the worker module (returning its export names), whether the module exposes
a `build` function, the tool loader, the build worker itself and the
release publisher.  `Except.error` models a thrown exception. -/
structure DepEnv where
  prepare : Except String RepoState
  importResult : Except String (List String)
  hasBuildFn : Bool
  loadTools : Except String Unit
  build : Except String WorkerResult
  release : Except String ReleaseResult
  releasedFiles : List String

/-- Observable collaborator invocations of the orchestration loop, tagged
with the dependency being processed. -/
inductive BEvent where
  | prepareRepo (dep : String)
  | importWorker (dep : String)
  | loadTools (dep : String)
  | invokeBuild (dep : String)
  | cleanupTools (dep : String)
  | publishRelease (dep : String)
  deriving Repr, DecidableEq

/-- The dependency tag of an event. -/
def BEvent.dep : BEvent → String
  | .prepareRepo d => d
  | .importWorker d => d
  | .loadTools d => d
  | .invokeBuild d => d
  | .cleanupTools d => d
  | .publishRelease d => d

/-- The merged result entry `{ ...buildResult, name, version, branch, ... }`
pushed by the orchestrator after a successful build. -/
def mergeResult (wr : WorkerResult) (depName : String) (version branchName : Option String)
    (releaseDir : Option String) (releasedFiles : Option (List String)) : BuildResult :=
  { ok := wr.ok, skipped := wr.skipped, name := depName, version := version,
    branch := branchName, releaseDir := releaseDir, releasedFiles := releasedFiles }

/-- Whether tools are configured: `depConfig.tools && depConfig.tools.length > 0`. -/
def toolsConfigured (dc : DepConfig) : Bool :=
  match dc.tools with
  | some ts => decide (0 < ts.length)
  | none => false

/-- The body of the orchestrator's per-dependency `try` block
(`src/scripts/utils/index.js` lines 188-324): prepare the repository,
check the `runner` field, import the worker module, check its `build`
export, load the tools when configured, invoke the build worker inside a
`try/finally` whose `finally` always calls the tool cleanup, then
optionally publish the release and form the result entry.  Returns the
emitted event trace and either the result entry to push or the thrown
error. -/
def processActiveDep (env : DepEnv) (copyToReleases : Bool) (releasesRoot : Option String)
    (depName : String) (depConfig : DepConfig) : List BEvent × Except String BuildResult :=
  match env.prepare with
  | Except.error e => ([BEvent.prepareRepo depName], Except.error e)
  | Except.ok repoResult =>
    if !(jsTruthyStr depConfig.runner) then
      ([BEvent.prepareRepo depName],
       Except.error ("Dependency \"" ++ depName ++
         "\" is missing a \"runner\" field in buildConfig.json"))
    else
      match env.importResult with
      | Except.error e =>
        ([BEvent.prepareRepo depName, BEvent.importWorker depName], Except.error e)
      | Except.ok exports =>
        if !env.hasBuildFn then
          ([BEvent.prepareRepo depName, BEvent.importWorker depName],
           Except.error ("Build worker at \"" ++ (depConfig.runner.getD "") ++
             "\" does not export a \"build\" function. Available exports: " ++
             String.intercalate ", " exports))
        else
          let evPre := [BEvent.prepareRepo depName, BEvent.importWorker depName] ++
            (if toolsConfigured depConfig then [BEvent.loadTools depName] else [])
          match (if toolsConfigured depConfig then env.loadTools else Except.ok ()) with
          | Except.error e => (evPre, Except.error e)
          | Except.ok () =>
            match env.build with
            | Except.error e =>
              (evPre ++ [BEvent.invokeBuild depName, BEvent.cleanupTools depName],
               Except.error e)
            | Except.ok wr =>
              let evBuild := evPre ++
                [BEvent.invokeBuild depName, BEvent.cleanupTools depName]
              if copyToReleases ∧ jsTruthyStr releasesRoot then
                match env.release with
                | Except.error e =>
                  (evBuild ++ [BEvent.publishRelease depName], Except.error e)
                | Except.ok rel =>
                  if rel.ok then
                    (evBuild ++ [BEvent.publishRelease depName],
                     Except.ok (mergeResult wr depName repoResult.version
                       repoResult.branch rel.releaseDir (some env.releasedFiles)))
                  else
                    (evBuild ++ [BEvent.publishRelease depName],
                     Except.ok (mergeResult wr depName repoResult.version
                       repoResult.branch none none))
              else
                (evBuild,
                 Except.ok (mergeResult wr depName repoResult.version
                   repoResult.branch none none))

/-- The skip entry pushed for a dependency marked `skip: true`. -/
def skipEntry (depName : String) : BuildResult :=
  { ok := true, name := depName, skipped := some true,
    reason := some "marked as skip in config" }

/-- The failing entry pushed just before the loop rethrows. -/
def failEntry (depName : String) (e : String) : BuildResult :=
  { ok := false, name := depName, error := some e }

/-- The message of the missing-dependency invariant check. -/
def missingDepMessage (depName : String) : String :=
  "Dependency " ++ depName ++ " not found in configuration"

/-- The per-dependency loop of `orchestrateBuild` (lines 160-337),
instrumented with the event trace and, on the error path, paired with the
`results` array as accumulated at the moment of the throw. -/
def buildLoop (cfg : BuildConfig) (env : String → DepEnv) (copyToReleases : Bool) :
    List String → List BEvent → List BuildResult →
    List BEvent × Except (String × List BuildResult) (List BuildResult)
  | [], evs, results => (evs, Except.ok results)
  | depName :: rest, evs, results =>
    match getDependency (some cfg) depName with
    | none =>
      (evs, Except.error (missingDepMessage depName,
        results ++ [failEntry depName (missingDepMessage depName)]))
    | some depConfig =>
      if depConfig.skip then
        buildLoop cfg env copyToReleases rest evs (results ++ [skipEntry depName])
      else
        match (processActiveDep (env depName) copyToReleases cfg.releasesRoot
            depName depConfig).2 with
        | Except.ok res =>
          buildLoop cfg env copyToReleases rest
            (evs ++ (processActiveDep (env depName) copyToReleases cfg.releasesRoot
              depName depConfig).1)
            (results ++ [res])
        | Except.error e =>
          (evs ++ (processActiveDep (env depName) copyToReleases cfg.releasesRoot
            depName depConfig).1,
           Except.error (e, results ++ [failEntry depName e]))

/-- The `--only` filter of `orchestrateBuild` (lines 131-143). -/
def filterOnly (buildOrder : List String) (only : Option (List String)) : List String :=
  match only with
  | some onlyList =>
    if 0 < onlyList.length then buildOrder.filter (fun d => onlyList.contains d)
    else buildOrder
  | none => buildOrder

/-- The message carried by a `ResolveError`. -/
def ResolveError.message : ResolveError → String
  | .skipViolation _ m => m
  | .circular _ m => m

/-- `orchestrateBuild(options)` (lines 113-345): argument checks, config
validation, order resolution, the `--only` filter, then the instrumented
per-dependency loop.  `force` only flows into the collaborators, which the
`env` oracle already describes, so it is not consumed here. -/
def orchestrateBuild (config : Option BuildConfig) (buildRoot : Option String)
    (copyToReleases : Bool) (only : Option (List String)) (env : String → DepEnv) :
    List BEvent × Except (String × List BuildResult) (List BuildResult) :=
  match config with
  | none => ([], Except.error ("orchestrateBuild requires a config object", []))
  | some cfg =>
    if !(jsTruthyStr buildRoot) then
      ([], Except.error ("orchestrateBuild requires a buildRoot directory", []))
    else
      match validateBuildConfig (some cfg) with
      | Except.error e => ([], Except.error (e, []))
      | Except.ok () =>
        match resolveBuildOrder (some cfg) with
        | Except.error re => ([], Except.error (re.message, []))
        | Except.ok buildOrder =>
          buildLoop cfg env copyToReleases (filterOnly buildOrder only) [] []

/-- Every event of the per-dependency step is tagged with that
dependency. -/
theorem processActiveDep_tag (env : DepEnv) (c : Bool) (rr : Option String)
    (k : String) (dc : DepConfig) :
    ∀ ev ∈ (processActiveDep env c rr k dc).1, BEvent.dep ev = k := by
  intro ev hev
  unfold processActiveDep at hev
  repeat' split at hev
  all_goals aesop

/-- What the loop does to one dependency, as a standalone value: the
missing-config error, the skip entry, or the outcome of the active-path
processing. -/
def depStep (cfg : BuildConfig) (env : String → DepEnv) (copyToReleases : Bool)
    (depName : String) : Except String BuildResult :=
  match getDependency (some cfg) depName with
  | none => Except.error (missingDepMessage depName)
  | some depConfig =>
    if depConfig.skip then Except.ok (skipEntry depName)
    else (processActiveDep (env depName) copyToReleases cfg.releasesRoot
      depName depConfig).2

/-- The events the loop emits for one dependency (none for a missing or
skipped dependency). -/
def depEvents (cfg : BuildConfig) (env : String → DepEnv) (copyToReleases : Bool)
    (depName : String) : List BEvent :=
  match getDependency (some cfg) depName with
  | none => []
  | some depConfig =>
    if depConfig.skip then []
    else (processActiveDep (env depName) copyToReleases cfg.releasesRoot
      depName depConfig).1

/-- The entry recorded for one dependency (the pushed result on success,
the failing entry on a throw). -/
def depStepValue (cfg : BuildConfig) (env : String → DepEnv) (copyToReleases : Bool)
    (depName : String) : BuildResult :=
  match depStep cfg env copyToReleases depName with
  | Except.ok v => v
  | Except.error e => failEntry depName e

/-- The `results` array carried by an orchestration outcome (the returned
list on success, the list accumulated at the moment of the throw on
failure). -/
def resultsOf
    (x : List BEvent × Except (String × List BuildResult) (List BuildResult)) :
    List BuildResult :=
  match x.2 with
  | Except.ok rs => rs
  | Except.error pr => pr.2

/-- Events emitted for one dependency are tagged with it. -/
theorem depEvents_tag (cfg : BuildConfig) (env : String → DepEnv) (c : Bool)
    (k : String) : ∀ ev ∈ depEvents cfg env c k, BEvent.dep ev = k := by
  intro ev hev
  unfold depEvents at hev
  cases hdep : getDependency (some cfg) k with
  | none => simp only [hdep] at hev; cases hev
  | some dc =>
    simp only [hdep] at hev
    by_cases hskip : dc.skip
    · rw [if_pos hskip] at hev; cases hev
    · rw [if_neg hskip] at hev
      exact processActiveDep_tag (env k) c cfg.releasesRoot k dc ev hev

/-- Processing a prefix of dependencies that all succeed just accumulates
their events and result entries. -/
theorem buildLoop_ok_prefix (cfg : BuildConfig) (env : String → DepEnv) (c : Bool) :
    ∀ (pre rest : List String) (evs : List BEvent) (rs : List BuildResult),
      (∀ j ∈ pre, ∃ v, depStep cfg env c j = Except.ok v) →
      buildLoop cfg env c (pre ++ rest) evs rs =
        buildLoop cfg env c rest (evs ++ pre.flatMap (depEvents cfg env c))
          (rs ++ pre.map (depStepValue cfg env c)) := by
  intro pre
  induction pre with
  | nil =>
    intro rest evs rs _
    simp
  | cons k pre' ih =>
    intro rest evs rs hok
    obtain ⟨v, hv⟩ := hok k (List.mem_cons_self k pre')
    rw [List.cons_append, buildLoop]
    split
    next hdep =>
      exfalso
      unfold depStep at hv
      simp only [hdep] at hv
      exact Except.noConfusion hv
    next dc hdep =>
      by_cases hskip : dc.skip
      · rw [if_pos hskip]
        rw [ih rest evs (rs ++ [skipEntry k])
          (fun j hj => hok j (List.mem_cons_of_mem k hj))]
        have hval : depStepValue cfg env c k = skipEntry k := by
          unfold depStepValue depStep
          simp only [hdep]
          rw [if_pos hskip]
        have hevk : depEvents cfg env c k = [] := by
          unfold depEvents
          simp only [hdep]
          rw [if_pos hskip]
        rw [List.flatMap_cons, hevk, List.map_cons, hval]
        simp [List.append_assoc]
      · rw [if_neg hskip]
        have hstep : (processActiveDep (env k) c cfg.releasesRoot k dc).2 =
            Except.ok v := by
          unfold depStep at hv
          simp only [hdep] at hv
          rw [if_neg hskip] at hv
          exact hv
        simp only [hstep]
        rw [ih rest (evs ++ (processActiveDep (env k) c cfg.releasesRoot k dc).1)
          (rs ++ [v]) (fun j hj => hok j (List.mem_cons_of_mem k hj))]
        have hval : depStepValue cfg env c k = v := by
          unfold depStepValue depStep
          simp only [hdep]
          rw [if_neg hskip, hstep]
        have hevk : depEvents cfg env c k =
            (processActiveDep (env k) c cfg.releasesRoot k dc).1 := by
          unfold depEvents
          simp only [hdep]
          rw [if_neg hskip]
        rw [List.flatMap_cons, hevk, List.map_cons, hval]
        simp [List.append_assoc]

/-- A failing dependency at the head of the remaining order stops the
loop: its events are appended and the failing entry is pushed before the
error propagates. -/
theorem buildLoop_fail_head (cfg : BuildConfig) (env : String → DepEnv) (c : Bool)
    (k : String) (rest : List String) (evs : List BEvent) (rs : List BuildResult)
    (e : String) (hfail : depStep cfg env c k = Except.error e) :
    buildLoop cfg env c (k :: rest) evs rs =
      (evs ++ depEvents cfg env c k, Except.error (e, rs ++ [failEntry k e])) := by
  rw [buildLoop]
  split
  next hdep =>
    unfold depStep at hfail
    simp only [hdep] at hfail
    injection hfail with he
    subst he
    have hevk : depEvents cfg env c k = [] := by
      unfold depEvents
      simp only [hdep]
    rw [hevk, List.append_nil]
  next dc hdep =>
    by_cases hskip : dc.skip
    · exfalso
      unfold depStep at hfail
      simp only [hdep] at hfail
      rw [if_pos hskip] at hfail
      cases hfail
    · rw [if_neg hskip]
      have hstep : (processActiveDep (env k) c cfg.releasesRoot k dc).2 =
          Except.error e := by
        unfold depStep at hfail
        simp only [hdep] at hfail
        rw [if_neg hskip] at hfail
        exact hfail
      simp only [hstep]
      have hevk : depEvents cfg env c k =
          (processActiveDep (env k) c cfg.releasesRoot k dc).1 := by
        unfold depEvents
        simp only [hdep]
        rw [if_neg hskip]
      rw [hevk]

/-- The loop only appends to the result list. -/
theorem buildLoop_results_extends (cfg : BuildConfig) (env : String → DepEnv) (c : Bool) :
    ∀ (l : List String) (evs : List BEvent) (rs : List BuildResult),
      ∃ tail, resultsOf (buildLoop cfg env c l evs rs) = rs ++ tail := by
  intro l
  induction l with
  | nil => intro evs rs; exact ⟨[], by rw [buildLoop]; simp [resultsOf]⟩
  | cons k rest ih =>
    intro evs rs
    rw [buildLoop]
    split
    next hdep =>
      exact ⟨[failEntry k (missingDepMessage k)], by simp [resultsOf]⟩
    next dc hdep =>
      by_cases hskip : dc.skip
      · rw [if_pos hskip]
        obtain ⟨tail, htail⟩ := ih evs (rs ++ [skipEntry k])
        exact ⟨[skipEntry k] ++ tail, by rw [htail, List.append_assoc]⟩
      · rw [if_neg hskip]
        cases hstep : (processActiveDep (env k) c cfg.releasesRoot k dc).2 with
        | ok v =>
          simp only [hstep]
          obtain ⟨tail, htail⟩ := ih
            (evs ++ (processActiveDep (env k) c cfg.releasesRoot k dc).1) (rs ++ [v])
          exact ⟨[v] ++ tail, by rw [htail, List.append_assoc]⟩
        | error e =>
          simp only [hstep]
          exact ⟨[failEntry k e], by simp [resultsOf]⟩

/-- The loop's event trace is the concatenation of the per-dependency
events of some leading segment of the list being processed. -/
theorem buildLoop_trace_decomp (cfg : BuildConfig) (env : String → DepEnv) (c : Bool) :
    ∀ (l : List String) (evs : List BEvent) (rs : List BuildResult),
      ∃ p q, l = p ++ q ∧
        (buildLoop cfg env c l evs rs).1 = evs ++ p.flatMap (depEvents cfg env c) := by
  intro l
  induction l with
  | nil =>
    intro evs rs
    exact ⟨[], [], rfl, by rw [buildLoop]; simp⟩
  | cons k rest ih =>
    intro evs rs
    rw [buildLoop]
    split
    next hdep =>
      exact ⟨[], k :: rest, rfl, by simp⟩
    next dc hdep =>
      by_cases hskip : dc.skip
      · rw [if_pos hskip]
        obtain ⟨p, q, hpq, htr⟩ := ih evs (rs ++ [skipEntry k])
        refine ⟨k :: p, q, by rw [hpq, List.cons_append], ?_⟩
        rw [htr, List.flatMap_cons]
        have hevk : depEvents cfg env c k = [] := by
          unfold depEvents
          simp only [hdep]
          rw [if_pos hskip]
        rw [hevk, List.nil_append]
      · rw [if_neg hskip]
        have hevk : depEvents cfg env c k =
            (processActiveDep (env k) c cfg.releasesRoot k dc).1 := by
          unfold depEvents
          simp only [hdep]
          rw [if_neg hskip]
        cases hstep : (processActiveDep (env k) c cfg.releasesRoot k dc).2 with
        | ok v =>
          simp only [hstep]
          obtain ⟨p, q, hpq, htr⟩ := ih
            (evs ++ (processActiveDep (env k) c cfg.releasesRoot k dc).1) (rs ++ [v])
          refine ⟨k :: p, q, by rw [hpq, List.cons_append], ?_⟩
          rw [htr, List.flatMap_cons, hevk, List.append_assoc]
        | error e =>
          simp only [hstep]
          refine ⟨[k], rest, rfl, ?_⟩
          rw [List.flatMap_cons, hevk]
          simp

/-- Once the argument checks, validation and order resolution succeed,
`orchestrateBuild` is the instrumented loop over the filtered order. -/
theorem orchestrateBuild_eq_loop (cfg : BuildConfig) (buildRoot : Option String)
    (c : Bool) (only : Option (List String)) (env : String → DepEnv)
    (buildOrder : List String)
    (hbr : jsTruthyStr buildRoot = true)
    (hvalid : validateBuildConfig (some cfg) = Except.ok ())
    (hresolve : resolveBuildOrder (some cfg) = Except.ok buildOrder) :
    orchestrateBuild (some cfg) buildRoot c only env =
      buildLoop cfg env c (filterOnly buildOrder only) [] [] := by
  simp only [orchestrateBuild, hbr, Bool.not_true, hvalid, hresolve]
  rw [if_neg (fun h => Bool.false_ne_true h)]

/-- C7: if the first failing dependency in the filtered order is `k` (all
earlier ones succeed), the orchestration stops there: the trace contains
only the events of the processed dependencies up to and including `k`, the
rethrown error is `k`'s, and the result list accumulated at the throw
consists of exactly one entry per processed dependency, the last being
`k`'s `ok:false` entry carrying the error message. -/
theorem orchestrateBuild_fail_fast (cfg : BuildConfig) (buildRoot : Option String)
    (c : Bool) (only : Option (List String)) (env : String → DepEnv)
    (buildOrder pre post : List String) (k e : String)
    (hbr : jsTruthyStr buildRoot = true)
    (hvalid : validateBuildConfig (some cfg) = Except.ok ())
    (hresolve : resolveBuildOrder (some cfg) = Except.ok buildOrder)
    (hsplit : filterOnly buildOrder only = pre ++ k :: post)
    (hpre : ∀ j ∈ pre, ∃ v, depStep cfg env c j = Except.ok v)
    (hk : depStep cfg env c k = Except.error e) :
    orchestrateBuild (some cfg) buildRoot c only env =
      (pre.flatMap (depEvents cfg env c) ++ depEvents cfg env c k,
       Except.error (e, pre.map (depStepValue cfg env c) ++ [failEntry k e])) := by
  rw [orchestrateBuild_eq_loop cfg buildRoot c only env buildOrder hbr hvalid hresolve,
    hsplit, buildLoop_ok_prefix cfg env c pre (k :: post) [] [] hpre,
    buildLoop_fail_head cfg env c k post _ _ e hk]
  simp

/-- Concrete instance for C7: a single-dependency run whose repository
preparation throws stops immediately with the failing entry recorded. -/
theorem orchestrateBuild_fail_fast_witness :
    orchestrateBuild
      (some { version := some "1.0.0",
              deps := some [("a",
                { name := some "a",
                  git := some { url := some "https://example.com/a.git",
                                shallow := some true, initSubmodules := some false },
                  branch := some "main",
                  runner := some "./worker.js" })],
              releasesRoot := none })
      (some "/build") false none
      (fun _ => { prepare := Except.error "clone failed",
                  importResult := Except.ok ["build"],
                  hasBuildFn := true,
                  loadTools := Except.ok (),
                  build := Except.ok { ok := true },
                  release := Except.ok { ok := true },
                  releasedFiles := [] }) =
      ([BEvent.prepareRepo "a"],
       Except.error ("clone failed", [failEntry "a" "clone failed"])) := by
  have h := orchestrateBuild_fail_fast
    { version := some "1.0.0",
      deps := some [("a",
        { name := some "a",
          git := some { url := some "https://example.com/a.git",
                        shallow := some true, initSubmodules := some false },
          branch := some "main",
          runner := some "./worker.js" })],
      releasesRoot := none }
    (some "/build") false none
    (fun _ => { prepare := Except.error "clone failed",
                importResult := Except.ok ["build"],
                hasBuildFn := true,
                loadTools := Except.ok (),
                build := Except.ok { ok := true },
                release := Except.ok { ok := true },
                releasedFiles := [] })
    ["a"] [] [] "a" "clone failed"
    rfl rfl (by rfl) rfl (by intro j hj; cases hj) (by rfl)
  rw [h]
  rfl


/-- The Kahn loop only ever moves keys from the queue (seeded and refilled
with active keys) into the result, so the result stays inside the active
keys. -/
theorem kahnRun_mem_active (deps : List (String × DepConfig)) :
    ∀ (fuel : Nat) (indeg : String → Int) (queue result : List String),
      (∀ n ∈ queue, n ∈ activeNames deps) →
      (∀ n ∈ result, n ∈ activeNames deps) →
      ∀ n ∈ kahnRun (graphOf deps) fuel indeg queue result, n ∈ activeNames deps := by
  intro fuel
  induction fuel with
  | zero =>
    intro indeg queue result _ hr n hn
    rw [kahnRun] at hn
    exact hr n hn
  | succ fuel ih =>
    intro indeg queue result hq hr n hn
    cases queue with
    | nil =>
      rw [kahnRun] at hn
      exact hr n hn
    | cons current restQ =>
      rw [kahnRun] at hn
      obtain ⟨qnew, heq, hsub⟩ :=
        processNeighbors_queue_sub (graphOf deps current) indeg restQ
      refine ih _ _ _ ?_ ?_ n hn
      · intro m hm
        rw [heq, List.mem_append] at hm
        rcases hm with hm | hm
        · exact hq m (List.mem_cons_of_mem current hm)
        · exact ((mem_graphOf deps current m).mp (hsub m hm)).1
      · intro m hm
        rw [List.mem_append] at hm
        rcases hm with hm | hm
        · exact hr m hm
        · rw [List.mem_singleton] at hm
          exact hm ▸ hq current (List.mem_cons_self current restQ)

/-- A successfully resolved build order only contains active
(non-skipped) keys. -/
theorem resolveBuildOrder_ok_subset (deps : List (String × DepConfig))
    (v r : Option String) (order : List String)
    (h : resolveBuildOrder (some { version := v, deps := some deps, releasesRoot := r }) =
      Except.ok order) :
    ∀ n ∈ order, n ∈ activeNames deps := by
  rw [resolveBuildOrder_some] at h
  by_cases h1 : (skipViolations deps).isEmpty
  · rw [if_pos h1] at h
    by_cases h2 : (kahnResult deps).length = (activeNames deps).length
    · rw [if_pos h2] at h
      have horder : order = kahnResult deps := (Except.ok.injEq _ _).mp h.symm
      subst horder
      unfold kahnResult
      exact kahnRun_mem_active deps _ _ _ _
        (fun m hm => List.mem_of_mem_filter hm)
        (fun m hm => absurd hm (List.not_mem_nil m))
    · rw [if_neg h2] at h
      exact absurd h (Except.noConfusion)
  · rw [if_neg h1] at h
    exact absurd h (Except.noConfusion)

/-- A result entry returned by the active-dependency step carries the name
of that dependency. -/
theorem processActiveDep_ok_name (env : DepEnv) (c : Bool) (rr : Option String)
    (k : String) (dc : DepConfig) (res : BuildResult)
    (h : (processActiveDep env c rr k dc).2 = Except.ok res) : res.name = k := by
  unfold processActiveDep at h
  repeat' split at h
  all_goals simp_all [mergeResult]
  all_goals (subst h; rfl)

/-- Every entry of the results array is either carried in from the
accumulator or named after one of the dependencies the loop was given. -/
theorem buildLoop_names (cfg : BuildConfig) (env : String → DepEnv) (c : Bool) :
    ∀ (l : List String) (evs : List BEvent) (acc : List BuildResult),
      ∀ rs ∈ resultsOf (buildLoop cfg env c l evs acc), rs ∈ acc ∨ rs.name ∈ l := by
  intro l
  induction l with
  | nil =>
    intro evs acc rs hrs
    rw [buildLoop] at hrs
    exact Or.inl hrs
  | cons depName rest ih =>
    intro evs acc rs hrs
    rw [buildLoop] at hrs
    split at hrs
    · have hrs' : rs ∈ acc ++ [failEntry depName (missingDepMessage depName)] := hrs
      rw [List.mem_append] at hrs'
      rcases hrs' with h | h
      · exact Or.inl h
      · rw [List.mem_singleton] at h
        exact Or.inr (h ▸ List.mem_cons_self depName rest)
    · split at hrs
      · rcases ih _ _ rs hrs with h | h
        · rw [List.mem_append] at h
          rcases h with h | h
          · exact Or.inl h
          · rw [List.mem_singleton] at h
            exact Or.inr (h ▸ List.mem_cons_self depName rest)
        · exact Or.inr (List.mem_cons_of_mem depName h)
      · split at hrs
        · next res hok =>
          rcases ih _ _ rs hrs with h | h
          · rw [List.mem_append] at h
            rcases h with h | h
            · exact Or.inl h
            · rw [List.mem_singleton] at h
              have := processActiveDep_ok_name _ c cfg.releasesRoot depName _ res hok
              exact Or.inr (by rw [h, this]; exact List.mem_cons_self depName rest)
          · exact Or.inr (List.mem_cons_of_mem depName h)
        · next e herr =>
          have hrs' : rs ∈ acc ++ [failEntry depName e] := hrs
          rw [List.mem_append] at hrs'
          rcases hrs' with h | h
          · exact Or.inl h
          · rw [List.mem_singleton] at h
            exact Or.inr (h ▸ List.mem_cons_self depName rest)

/-- The `--only` filter only narrows the build order. -/
theorem mem_filterOnly (buildOrder : List String) (only : Option (List String))
    (n : String) (h : n ∈ filterOnly buildOrder only) : n ∈ buildOrder := by
  unfold filterOnly at h
  split at h
  · split at h
    · exact List.mem_of_mem_filter h
    · exact h
  · exact h

/-- Configuration and collaborator oracle exercising the skip handling: a
skipped dependency `s` next to an active dependency `a` whose build
succeeds. -/
def skipRunConfig : BuildConfig :=
  { version := some "1.0.0",
    deps := some
      [("s", { name := some "s",
               git := some { url := some "https://example.com/s.git",
                             shallow := some true, initSubmodules := some false },
               branch := some "main",
               skip := true }),
       ("a", { name := some "a",
               git := some { url := some "https://example.com/a.git",
                             shallow := some true, initSubmodules := some false },
               branch := some "main",
               runner := some "./worker.js" })],
    releasesRoot := none }

/-- Collaborators for `skipRunConfig`: every step of `a` succeeds. -/
def skipRunEnv : String → DepEnv :=
  fun _ => { prepare := Except.ok { repoRoot := "/build/.git.temp/a" },
             importResult := Except.ok ["build"],
             hasBuildFn := true,
             loadTools := Except.ok (),
             build := Except.ok { ok := true },
             release := Except.ok { ok := true },
             releasedFiles := [] }

/-- C4 counterexample: dependency `s` is marked `skip: true` and the
orchestration completes successfully, yet the returned result list holds
no entry for `s` at all — in particular not the `ok:true, skipped:true`
entry the claim promises.  The in-loop skip branch never fires because
`resolveBuildOrder` already excludes skipped keys from the build order. -/
theorem orchestrateBuild_skip_entry_counterexample :
    (∃ dc, getDependency (some skipRunConfig) "s" = some dc ∧ dc.skip = true) ∧
    ∃ evs rs, orchestrateBuild (some skipRunConfig) (some "/build") false none skipRunEnv =
        (evs, Except.ok rs) ∧
      skipEntry "s" ∉ rs ∧ ∀ e ∈ rs, e.name ≠ "s" := by
  refine ⟨⟨_, rfl, rfl⟩,
    [BEvent.prepareRepo "a", BEvent.importWorker "a",
     BEvent.invokeBuild "a", BEvent.cleanupTools "a"],
    [{ ok := true, name := "a" }], rfl, by decide, by decide⟩

/-- C4 (amended): a dependency marked `skip: true` never enters the build
order at all — `resolveBuildOrder` partitions it away before sorting — so
`orchestrateBuild` runs no repository-preparation, import, tool or build
step for it and records no result entry (not even a skipped one) under its
name; the orchestrator's in-loop skip branch is unreachable for
configuration-driven skips. -/
theorem orchestrateBuild_skip_amended (deps : List (String × DepConfig))
    (v r buildRoot : Option String) (c : Bool) (only : Option (List String))
    (env : String → DepEnv) (k : String) (dc : DepConfig) (buildOrder : List String)
    (hdep : lookupDep deps k = some dc)
    (hskip : dc.skip = true)
    (hbr : jsTruthyStr buildRoot = true)
    (hvalid : validateBuildConfig
      (some { version := v, deps := some deps, releasesRoot := r }) = Except.ok ())
    (hresolve : resolveBuildOrder
      (some { version := v, deps := some deps, releasesRoot := r }) =
      Except.ok buildOrder) :
    k ∉ buildOrder ∧
    (∀ ev ∈ (orchestrateBuild (some { version := v, deps := some deps, releasesRoot := r })
       buildRoot c only env).1, BEvent.dep ev ≠ k) ∧
    (∀ rs ∈ resultsOf (orchestrateBuild
       (some { version := v, deps := some deps, releasesRoot := r })
       buildRoot c only env), rs.name ≠ k) := by
  have hnotin : k ∉ buildOrder := by
    intro hk
    have hact := resolveBuildOrder_ok_subset deps v r buildOrder hresolve k hk
    unfold activeNames at hact
    rw [List.mem_filter] at hact
    have : isSkip deps k = true := by
      unfold isSkip
      simp only [hdep]
      exact hskip
    rw [this] at hact
    exact absurd hact.2 (by decide)
  rw [orchestrateBuild_eq_loop _ buildRoot c only env buildOrder hbr hvalid hresolve]
  refine ⟨hnotin, ?_, ?_⟩
  · intro ev hev
    obtain ⟨p, q, hpq, htr⟩ := buildLoop_trace_decomp _ env c
      (filterOnly buildOrder only) [] []
    rw [htr, List.nil_append, List.mem_flatMap] at hev
    obtain ⟨j, hj, hevj⟩ := hev
    have htag := depEvents_tag _ env c j ev hevj
    rw [htag]
    intro hjk
    subst hjk
    exact hnotin (mem_filterOnly buildOrder only j (hpq ▸ List.mem_append.mpr (Or.inl hj)))
  · intro rs hrs
    rcases buildLoop_names _ env c (filterOnly buildOrder only) [] [] rs hrs with h | h
    · exact absurd h (List.not_mem_nil rs)
    · intro hname
      exact hnotin (mem_filterOnly buildOrder only k (hname ▸ h))

/-- Concrete instance of the amended C4 statement on `skipRunConfig`. -/
theorem orchestrateBuild_skip_amended_witness :
    "s" ∉ ["a"] ∧
    (∀ ev ∈ (orchestrateBuild (some skipRunConfig) (some "/build") false none
       skipRunEnv).1, BEvent.dep ev ≠ "s") ∧
    (∀ rs ∈ resultsOf (orchestrateBuild (some skipRunConfig) (some "/build") false none
       skipRunEnv), rs.name ≠ "s") :=
  orchestrateBuild_skip_amended
    [("s", { name := some "s",
             git := some { url := some "https://example.com/s.git",
                           shallow := some true, initSubmodules := some false },
             branch := some "main",
             skip := true }),
     ("a", { name := some "a",
             git := some { url := some "https://example.com/a.git",
                           shallow := some true, initSubmodules := some false },
             branch := some "main",
             runner := some "./worker.js" })]
    (some "1.0.0") none (some "/build") false none skipRunEnv "s"
    { name := some "s",
      git := some { url := some "https://example.com/s.git",
                    shallow := some true, initSubmodules := some false },
      branch := some "main",
      skip := true }
    ["a"] rfl rfl rfl (by rfl) (by rfl)

/-- With duplicate-free configuration keys, the Kahn result has no
duplicates (each key is dequeued at most once). -/
theorem kahnResult_nodup (deps : List (String × DepConfig))
    (hkeys : (depKeys deps).Nodup) : (kahnResult deps).Nodup := by
  obtain ⟨indeg', inv⟩ := kahnRun_spec deps hkeys (kahnFuel deps) (indegInit deps)
    ((activeNames deps).filter (fun n => indegInit deps n = 0)) []
    (kahnInv_init deps hkeys) (by unfold kahnFuel; omega)
  have hnd := inv.nodup
  rw [List.append_nil] at hnd
  exact hnd

/-- With duplicate-free configuration keys, a successfully resolved build
order lists each dependency at most once. -/
theorem resolveBuildOrder_ok_nodup (deps : List (String × DepConfig))
    (v r : Option String) (order : List String)
    (hkeys : (depKeys deps).Nodup)
    (h : resolveBuildOrder (some { version := v, deps := some deps, releasesRoot := r }) =
      Except.ok order) : order.Nodup := by
  rw [resolveBuildOrder_some] at h
  by_cases h1 : (skipViolations deps).isEmpty
  · rw [if_pos h1] at h
    by_cases h2 : (kahnResult deps).length = (activeNames deps).length
    · rw [if_pos h2] at h
      have horder : order = kahnResult deps := (Except.ok.injEq _ _).mp h.symm
      exact horder ▸ kahnResult_nodup deps hkeys
    · rw [if_neg h2] at h
      exact absurd h (Except.noConfusion)
  · rw [if_neg h1] at h
    exact absurd h (Except.noConfusion)

/-- The `--only` filter preserves duplicate-freeness. -/
theorem filterOnly_nodup (buildOrder : List String) (only : Option (List String))
    (h : buildOrder.Nodup) : (filterOnly buildOrder only).Nodup := by
  unfold filterOnly
  split
  · split
    · exact h.filter _
    · exact h
  · exact h

/-- When the dependency reaches the tool-loading stage and the tools load
successfully, the per-dependency step emits exactly the preparation,
module-import and tool-load events followed by the build invocation and, directly
after it, the tool cleanup — whatever the build worker then does — with at
most a release publication after that. -/
theorem processActiveDep_events_build (env : DepEnv) (c : Bool) (rr : Option String)
    (k : String) (dc : DepConfig) (repo : RepoState) (ex : List String)
    (hprep : env.prepare = Except.ok repo)
    (hrunner : jsTruthyStr dc.runner = true)
    (himp : env.importResult = Except.ok ex)
    (hfn : env.hasBuildFn = true)
    (htools : toolsConfigured dc = true)
    (hload : env.loadTools = Except.ok ()) :
    ∃ rel, (processActiveDep env c rr k dc).1 =
      [BEvent.prepareRepo k, BEvent.importWorker k, BEvent.loadTools k,
       BEvent.invokeBuild k, BEvent.cleanupTools k] ++ rel ∧
      ∀ ev ∈ rel, ev = BEvent.publishRelease k := by
  unfold processActiveDep
  simp only [hprep, hrunner, himp, hfn, htools, hload, Bool.not_true, if_true, ite_true,
    Bool.false_eq_true, if_false, ite_false]
  cases hbuild : env.build with
  | error e =>
    exact ⟨[], by simp, by intro ev h; cases h⟩
  | ok wr =>
    by_cases hcr : c = true ∧ jsTruthyStr rr = true
    · cases hrel : env.release with
      | error e =>
        exact ⟨[BEvent.publishRelease k], by simp [hcr], by
          intro ev h
          rw [List.mem_singleton] at h
          exact h⟩
      | ok rl =>
        by_cases hok : rl.ok = true
        · exact ⟨[BEvent.publishRelease k], by simp [hcr, hok], by
            intro ev h
            rw [List.mem_singleton] at h
            exact h⟩
        · exact ⟨[BEvent.publishRelease k], by simp [hcr, hok], by
            intro ev h
            rw [List.mem_singleton] at h
            exact h⟩
    · exact ⟨[], by simp [hcr], by intro ev h; cases h⟩

/-- The trace of the loop on `k :: post` is the incoming trace, then `k`'s
own events, then events of later dependencies only. -/
theorem buildLoop_trace_head (cfg : BuildConfig) (env : String → DepEnv) (c : Bool)
    (k : String) (post : List String) (evs : List BEvent) (rs : List BuildResult) :
    ∃ tail, (buildLoop cfg env c (k :: post) evs rs).1 =
        evs ++ depEvents cfg env c k ++ tail ∧
      ∀ ev ∈ tail, ∃ j ∈ post, ev ∈ depEvents cfg env c j := by
  rw [buildLoop]
  split
  next hdep =>
    refine ⟨[], ?_, by intro ev h; cases h⟩
    have hevk : depEvents cfg env c k = [] := by
      unfold depEvents
      simp only [hdep]
    rw [hevk]
    simp
  next dc hdep =>
    by_cases hskip : dc.skip
    · rw [if_pos hskip]
      obtain ⟨p, q, hpq, htr⟩ := buildLoop_trace_decomp cfg env c post evs
        (rs ++ [skipEntry k])
      have hevk : depEvents cfg env c k = [] := by
        unfold depEvents
        simp only [hdep]
        rw [if_pos hskip]
      refine ⟨p.flatMap (depEvents cfg env c), ?_, ?_⟩
      · rw [htr, hevk]
        simp
      · intro ev hev
        rw [List.mem_flatMap] at hev
        obtain ⟨j, hj, hevj⟩ := hev
        exact ⟨j, by rw [hpq]; exact List.mem_append.mpr (Or.inl hj), hevj⟩
    · rw [if_neg hskip]
      have hevk : depEvents cfg env c k =
          (processActiveDep (env k) c cfg.releasesRoot k dc).1 := by
        unfold depEvents
        simp only [hdep]
        rw [if_neg hskip]
      cases hstep : (processActiveDep (env k) c cfg.releasesRoot k dc).2 with
      | ok w =>
        simp only [hstep]
        obtain ⟨p, q, hpq, htr⟩ := buildLoop_trace_decomp cfg env c post
          (evs ++ (processActiveDep (env k) c cfg.releasesRoot k dc).1) (rs ++ [w])
        refine ⟨p.flatMap (depEvents cfg env c), ?_, ?_⟩
        · rw [htr, hevk, List.append_assoc]
        · intro ev hev
          rw [List.mem_flatMap] at hev
          obtain ⟨j, hj, hevj⟩ := hev
          exact ⟨j, by rw [hpq]; exact List.mem_append.mpr (Or.inl hj), hevj⟩
      | error e =>
        simp only [hstep]
        exact ⟨[], by rw [hevk]; simp, by intro ev h; cases h⟩

/-- C8: for a dependency whose tools are configured and load successfully,
the orchestration trace invokes the tool cleanup exactly once, immediately
after the build-worker invocation, regardless of whether the build worker
returns normally or throws (the `finally` path); the build worker itself
also runs exactly once. -/
theorem orchestrateBuild_tools_cleanup (deps : List (String × DepConfig))
    (v r buildRoot : Option String) (c : Bool) (only : Option (List String))
    (env : String → DepEnv) (buildOrder pre post : List String) (k : String)
    (dc : DepConfig) (repo : RepoState) (ex : List String)
    (hkeys : (depKeys deps).Nodup)
    (hbr : jsTruthyStr buildRoot = true)
    (hvalid : validateBuildConfig
      (some { version := v, deps := some deps, releasesRoot := r }) = Except.ok ())
    (hresolve : resolveBuildOrder
      (some { version := v, deps := some deps, releasesRoot := r }) =
      Except.ok buildOrder)
    (hsplit : filterOnly buildOrder only = pre ++ k :: post)
    (hpre : ∀ j ∈ pre, ∃ w, depStep { version := v, deps := some deps, releasesRoot := r }
      env c j = Except.ok w)
    (hdep : lookupDep deps k = some dc)
    (hskip : dc.skip = false)
    (htools : toolsConfigured dc = true)
    (hprep : (env k).prepare = Except.ok repo)
    (hrunner : jsTruthyStr dc.runner = true)
    (himp : (env k).importResult = Except.ok ex)
    (hfn : (env k).hasBuildFn = true)
    (hload : (env k).loadTools = Except.ok ()) :
    ∃ l1 l2,
      (orchestrateBuild (some { version := v, deps := some deps, releasesRoot := r })
          buildRoot c only env).1 =
        l1 ++ [BEvent.invokeBuild k, BEvent.cleanupTools k] ++ l2 ∧
      ((orchestrateBuild (some { version := v, deps := some deps, releasesRoot := r })
          buildRoot c only env).1).count (BEvent.cleanupTools k) = 1 ∧
      ((orchestrateBuild (some { version := v, deps := some deps, releasesRoot := r })
          buildRoot c only env).1).count (BEvent.invokeBuild k) = 1 := by
  have hget : getDependency
      (some { version := v, deps := some deps, releasesRoot := r }) k = some dc := hdep
  have hnd : (pre ++ k :: post).Nodup := by
    rw [← hsplit]
    exact filterOnly_nodup buildOrder only
      (resolveBuildOrder_ok_nodup deps v r buildOrder hkeys hresolve)
  obtain ⟨hpre_nd, hkpost_nd, hdisj⟩ := List.nodup_append.mp hnd
  have hkpre : k ∉ pre := fun hk => hdisj hk (List.mem_cons_self k post)
  have hkpost : k ∉ post := (List.nodup_cons.mp hkpost_nd).1
  have hevk : depEvents { version := v, deps := some deps, releasesRoot := r } env c k =
      (processActiveDep (env k) c r k dc).1 := by
    unfold depEvents
    simp only [hget]
    rw [if_neg (by rw [hskip]; exact fun h => Bool.false_ne_true h)]
  obtain ⟨rel, hev, hrel⟩ := processActiveDep_events_build (env k) c r k dc repo ex
    hprep hrunner himp hfn htools hload
  obtain ⟨tail, htr, htail⟩ := buildLoop_trace_head
    { version := v, deps := some deps, releasesRoot := r } env c k post
    ([] ++ pre.flatMap (depEvents { version := v, deps := some deps, releasesRoot := r } env c))
    ([] ++ pre.map (depStepValue { version := v, deps := some deps, releasesRoot := r } env c))
  rw [orchestrateBuild_eq_loop _ buildRoot c only env buildOrder hbr hvalid hresolve,
    hsplit, buildLoop_ok_prefix _ env c pre (k :: post) [] [] hpre, htr, hevk, hev,
    List.nil_append]
  have hpreC : ∀ x : BEvent, BEvent.dep x = k →
      (pre.flatMap (depEvents { version := v, deps := some deps, releasesRoot := r }
        env c)).count x = 0 := by
    intro x hx
    rw [List.count_eq_zero]
    intro hmem
    rw [List.mem_flatMap] at hmem
    obtain ⟨j, hj, hevj⟩ := hmem
    have hkj : k = j := hx ▸ depEvents_tag _ env c j x hevj
    exact hkpre (by rw [hkj]; exact hj)
  have htailC : ∀ x : BEvent, BEvent.dep x = k → tail.count x = 0 := by
    intro x hx
    rw [List.count_eq_zero]
    intro hmem
    obtain ⟨j, hj, hevj⟩ := htail x hmem
    have hkj : k = j := hx ▸ depEvents_tag _ env c j x hevj
    exact hkpost (by rw [hkj]; exact hj)
  have hrelC : ∀ x : BEvent, x ≠ BEvent.publishRelease k → rel.count x = 0 := by
    intro x hx
    rw [List.count_eq_zero]
    intro hmem
    exact hx (hrel x hmem)
  refine ⟨pre.flatMap (depEvents { version := v, deps := some deps, releasesRoot := r }
      env c) ++ [BEvent.prepareRepo k, BEvent.importWorker k, BEvent.loadTools k],
    rel ++ tail, by simp, ?_, ?_⟩
  · rw [List.count_append, List.count_append, List.count_append,
      hpreC (BEvent.cleanupTools k) rfl, htailC (BEvent.cleanupTools k) rfl,
      hrelC (BEvent.cleanupTools k) (fun h => BEvent.noConfusion h)]
    simp
  · rw [List.count_append, List.count_append, List.count_append,
      hpreC (BEvent.invokeBuild k) rfl, htailC (BEvent.invokeBuild k) rfl,
      hrelC (BEvent.invokeBuild k) (fun h => BEvent.noConfusion h)]
    simp

/-- Concrete instance for C8 on the throwing path: a dependency with one
configured tool whose build worker throws still gets its tool cleanup, and
exactly once. -/
theorem orchestrateBuild_tools_cleanup_witness :
    ∃ l1 l2,
      (orchestrateBuild
        (some { version := some "1.0.0",
                deps := some [("a",
                  { name := some "a",
                    git := some { url := some "https://example.com/a.git",
                                  shallow := some true, initSubmodules := some false },
                    branch := some "main",
                    runner := some "./worker.js",
                    tools := some [{ name := "cmake", toolFile := "tools/cmake.js" }] })],
                releasesRoot := none })
        (some "/build") false none
        (fun _ => { prepare := Except.ok { repoRoot := "/build/.git.temp/a" },
                    importResult := Except.ok ["build"],
                    hasBuildFn := true,
                    loadTools := Except.ok (),
                    build := Except.error "worker crashed",
                    release := Except.ok { ok := true },
                    releasedFiles := [] })).1 =
        l1 ++ [BEvent.invokeBuild "a", BEvent.cleanupTools "a"] ++ l2 ∧
      ((orchestrateBuild
        (some { version := some "1.0.0",
                deps := some [("a",
                  { name := some "a",
                    git := some { url := some "https://example.com/a.git",
                                  shallow := some true, initSubmodules := some false },
                    branch := some "main",
                    runner := some "./worker.js",
                    tools := some [{ name := "cmake", toolFile := "tools/cmake.js" }] })],
                releasesRoot := none })
        (some "/build") false none
        (fun _ => { prepare := Except.ok { repoRoot := "/build/.git.temp/a" },
                    importResult := Except.ok ["build"],
                    hasBuildFn := true,
                    loadTools := Except.ok (),
                    build := Except.error "worker crashed",
                    release := Except.ok { ok := true },
                    releasedFiles := [] })).1).count (BEvent.cleanupTools "a") = 1 ∧
      ((orchestrateBuild
        (some { version := some "1.0.0",
                deps := some [("a",
                  { name := some "a",
                    git := some { url := some "https://example.com/a.git",
                                  shallow := some true, initSubmodules := some false },
                    branch := some "main",
                    runner := some "./worker.js",
                    tools := some [{ name := "cmake", toolFile := "tools/cmake.js" }] })],
                releasesRoot := none })
        (some "/build") false none
        (fun _ => { prepare := Except.ok { repoRoot := "/build/.git.temp/a" },
                    importResult := Except.ok ["build"],
                    hasBuildFn := true,
                    loadTools := Except.ok (),
                    build := Except.error "worker crashed",
                    release := Except.ok { ok := true },
                    releasedFiles := [] })).1).count (BEvent.invokeBuild "a") = 1 :=
  orchestrateBuild_tools_cleanup
    [("a", { name := some "a",
             git := some { url := some "https://example.com/a.git",
                           shallow := some true, initSubmodules := some false },
             branch := some "main",
             runner := some "./worker.js",
             tools := some [{ name := "cmake", toolFile := "tools/cmake.js" }] })]
    (some "1.0.0") none (some "/build") false none
    (fun _ => { prepare := Except.ok { repoRoot := "/build/.git.temp/a" },
                importResult := Except.ok ["build"],
                hasBuildFn := true,
                loadTools := Except.ok (),
                build := Except.error "worker crashed",
                release := Except.ok { ok := true },
                releasedFiles := [] })
    ["a"] [] [] "a"
    { name := some "a",
      git := some { url := some "https://example.com/a.git",
                    shallow := some true, initSubmodules := some false },
      branch := some "main",
      runner := some "./worker.js",
      tools := some [{ name := "cmake", toolFile := "tools/cmake.js" }] }
    { repoRoot := "/build/.git.temp/a" } ["build"]
    (by decide) rfl rfl (by rfl) rfl (by intro j hj; cases hj)
    rfl rfl rfl rfl rfl rfl rfl rfl
